import Mathlib

/-!
Verification development for the restq in-memory job dispatcher
(`restq.py`): a lease-based, multi-queue job store with four public
operations (`add`, `remove`, `pull`, `status`) and a persistent,
revertible circular cursor per queue.

The Python source is shallowly embedded:

* Python `dict` objects (`self.jobs`, `self.queues`, `self.queue_iter`,
  `self.tasks`) are modelled as association lists in insertion order.
  CPython 2 iterates a dict in hash-table order; for the small integer
  keys exercised here that order coincides with insertion order in the
  concrete traces below, and in particular it is *not* the ascending
  sorted order.
* Python `set` objects are modelled as duplicate-free lists in insertion
  order (`addSet` only appends missing elements).
* `collections.OrderedDict` is modelled with its CPython 2 internals
  visible: a list of live nodes (the doubly linked list, in order) plus a
  record of deleted nodes with the successor pointer each held at the
  moment of deletion.  This is needed because `QueueIterator` stores a
  *live* `iteritems()` generator across calls: after deletions the
  suspended generator resumes from a deleted node and follows its frozen
  successor pointer, which can reach another deleted node and then fail
  the `self[k]` lookup inside `iteritems` with a `KeyError`.
* `time.time()` is modelled as an integer instant passed to `pull`; all
  reads of the clock within one serialized `pull` call observe the same
  instant.
* Exceptions are modelled with `Except` over the error kind actually
  raised (`KeyError`, `ValueError`, `ZeroDivisionError`, `StopIteration`,
  `AssertionError`); operations return the (possibly partially mutated)
  store alongside the outcome, matching in-place mutation semantics.
* The unbounded `while True` loop inside `Jobs.pull` recurses only after
  appending a job to the result, so it is run with fuel `count + 1`,
  which is proved sufficient where needed (`Err.outOfFuel` marks fuel
  exhaustion and is shown unreachable from the fuel actually supplied).
-/

namespace RestQ

/-- Error kinds corresponding to the Python exceptions the code can raise,
plus `outOfFuel` for the fuel-instrumented loop (proved unreachable at the
fuel `pull` supplies). -/
inductive Err where
  | keyError
  | valueError
  | zeroDivisionError
  | stopIteration
  | assertionError
  | outOfFuel
deriving DecidableEq, Repr

/-- The number of seconds a job can be leased for (`JOB_LEASE_TIME = 60 * 10`). -/
def JOB_LEASE_TIME : Int := 60 * 10

section AList

variable {κ : Type} {α : Type} [DecidableEq κ]

/-- Dictionary lookup on an insertion-ordered association list. -/
def lookupKV (k : κ) : List (κ × α) → Option α
  | [] => none
  | p :: rest => if p.1 = k then some p.2 else lookupKV k rest

/-- Dictionary store `d[k] = v`: update in place when the key is present
(keeping its position), otherwise append a new entry at the end. -/
def setKV (k : κ) (v : α) (l : List (κ × α)) : List (κ × α) :=
  match lookupKV k l with
  | some _ => l.map (fun p => if p.1 = k then (p.1, v) else p)
  | none => l ++ [(k, v)]

/-- Dictionary deletion `d.pop(k)`: drop the entry with key `k`. -/
def eraseKV (k : κ) (l : List (κ × α)) : List (κ × α) :=
  l.filter (fun p => p.1 ≠ k)

end AList

/-- Python `set.add`: append the element only when it is absent. -/
def addSet {α : Type} [DecidableEq α] (x : α) (l : List α) : List α :=
  if x ∈ l then l else l ++ [x]

/-- One node of the `OrderedDict` internal doubly linked list: a unique
allocation id (nodes are appended with increasing ids), the key and the
stored value (the last-dispatch timestamp). -/
structure Node where
  nid : Nat
  key : String
  val : Int
deriving DecidableEq, Repr

/-- CPython 2 `collections.OrderedDict`, with enough internal structure to
model suspended `iteritems()` generators: `live` is the linked list of
current nodes in insertion order; `dead` records, for every deleted node,
its key and the successor pointer it held at the moment of deletion
(`none` meaning the list root); `nextNid` allocates node ids. -/
structure ODict where
  live : List Node
  dead : List (Nat × String × Option Nat)
  nextNid : Nat
deriving DecidableEq, Repr

/-- The empty ordered dictionary. -/
def ODict.empty : ODict := ⟨[], [], 0⟩

/-- Dictionary lookup `od[k]` (the hash-table part of the OrderedDict). -/
def ODict.lookup (d : ODict) (k : String) : Option Int :=
  (d.live.find? (fun n => n.key = k)).map Node.val

/-- The current key sequence of the ordered dictionary. -/
def ODict.keys (d : ODict) : List String := d.live.map Node.key

/-- Store `od[k] = v`: update the value in place when `k` is present (its
node keeps its position in the linked list), otherwise append a fresh node
at the end. -/
def ODict.set (d : ODict) (k : String) (v : Int) : ODict :=
  match d.lookup k with
  | some _ =>
    { d with live := d.live.map (fun n => if n.key = k then { n with val := v } else n) }
  | none =>
    { d with live := d.live ++ [⟨d.nextNid, k, v⟩], nextNid := d.nextNid + 1 }

/-- Helper for `ODict.pop`: remove the first node with key `k` from the
linked list, returning its value, the remaining list and the dead-node
record (node id, key, and the successor pointer frozen at deletion). -/
def popLive (k : String) : List Node → Option (Int × List Node × (Nat × String × Option Nat))
  | [] => none
  | n :: rest =>
    if n.key = k then some (n.val, rest, (n.nid, n.key, (rest.head?).map Node.nid))
    else (popLive k rest).map (fun r => (r.1, n :: r.2.1, r.2.2))

/-- Deletion `od.pop(k)` (no default): `KeyError` when absent; otherwise
the node is unlinked and remembered in `dead` with its frozen successor
pointer, matching CPython 2 `OrderedDict.__delitem__` which splices the
live neighbours but leaves the removed link's own pointers untouched. -/
def ODict.pop (d : ODict) (k : String) : Except Err (Int × ODict) :=
  match popLive k d.live with
  | none => .error .keyError
  | some r => .ok (r.1, { live := r.2.1, dead := r.2.2 :: d.dead, nextNid := d.nextNid })

/-- Result of resuming the suspended `iteritems()` generator one step. -/
inductive StepRes where
  | stopS
  | yieldS (k : String) (v : Int) (p : Nat)
  | keyErrorS
deriving DecidableEq, Repr

/-- The node in the live list directly after the node with id `i`. -/
def succAfter (i : Nat) : List Node → Option Node
  | [] => none
  | n :: rest => if n.nid = i then rest.head? else succAfter i rest

/-- The key of node `i`, whether it is live or dead ( `none` when `i` was
never allocated, which cannot happen for a stored generator position). -/
def resolveNid (d : ODict) (i : Nat) : Option String :=
  match d.live.find? (fun n => n.nid = i) with
  | some n => some n.key
  | none => (lookupKV i d.dead).map Prod.fst

/-- The node the generator visits next from position `pos` (`none` =
freshly built, next is the head).  From a live node it follows the current
linked list; from a dead node it follows the successor pointer frozen at
deletion, which may itself name a dead node — the generator still visits
it, exactly like CPython 2's `OrderedDict.__iter__` which only stops at
the root sentinel. -/
def currOf (d : ODict) (pos : Option Nat) : Option (Nat × String) :=
  match pos with
  | none => d.live.head?.map (fun n => (n.nid, n.key))
  | some i =>
    if d.live.any (fun n => n.nid = i) then
      (succAfter i d.live).map (fun n => (n.nid, n.key))
    else
      match lookupKV i d.dead with
      | some r =>
        match r.2 with
        | none => none
        | some j => (resolveNid d j).map (fun k => (j, k))
      | none => none

/-- One resumption of the `iteritems()` generator: find the next node,
yield its key paired with the *current* dictionary value `self[k]`
(`KeyError` when the visited node's key is no longer in the dictionary),
or `StopIteration` at the root. -/
def iterStep (d : ODict) (pos : Option Nat) : StepRes :=
  match currOf d pos with
  | none => .stopS
  | some ik =>
    match d.lookup ik.2 with
    | some v => .yieldS ik.2 v ik.1
    | none => .keyErrorS

/-- The persistent per-queue cursor (`QueueIterator`): the running net
advance count `self._count` and the suspended generator position
(`none` = freshly rebuilt `self._queue.iteritems()`). -/
structure QueueIterator where
  count : Int
  pos : Option Nat
deriving DecidableEq, Repr

/-- A fresh cursor, as built at queue creation. -/
def QueueIterator.fresh : QueueIterator := ⟨0, none⟩

/-- `QueueIterator.next`: assert the queue is non-empty, then pull the next
item from the suspended generator, rebuilding it once on `StopIteration`
(a rebuilt generator over a non-empty dictionary always yields, so the one
retry matches the `while True` loop).  A `KeyError` escaping the generator
leaves the generator exhausted, so the stored position is cleared. -/
def qiNext (d : ODict) (qi : QueueIterator) : Except Err ((String × Int) × QueueIterator) × QueueIterator :=
  if d.live.isEmpty then (.error .assertionError, qi)
  else
    match iterStep d qi.pos with
    | .yieldS k v p => (.ok ((k, v), ⟨qi.count + 1, some p⟩), ⟨qi.count + 1, some p⟩)
    | .keyErrorS => (.error .keyError, ⟨qi.count, none⟩)
    | .stopS =>
      match iterStep d none with
      | .yieldS k v p => (.ok ((k, v), ⟨qi.count + 1, some p⟩), ⟨qi.count + 1, some p⟩)
      | .keyErrorS => (.error .keyError, ⟨qi.count, none⟩)
      | .stopS => (.error .stopIteration, ⟨qi.count, none⟩)

/-- Advance a freshly rebuilt generator `steps` times (the `while index >
0` loop of `revert`), threading the position; `StopIteration` and
`KeyError` escape uncaught. -/
def advanceN (d : ODict) : Nat → Option Nat → Except Err Unit × Option Nat
  | 0, pos => (.ok (), pos)
  | steps + 1, pos =>
    match iterStep d pos with
    | .yieldS _ _ p => advanceN d steps (some p)
    | .stopS => (.error .stopIteration, pos)
    | .keyErrorS => (.error .keyError, pos)

/-- `QueueIterator.revert`: decrement `self._count`, rebuild the
generator, and advance it `len(self._queue) % self._count` times — a
`ZeroDivisionError` when the decremented count is zero (Python `%` is
modelled by `Int.fmod`, whose result has the divisor's sign, so a negative
count yields a non-positive index and the loop body never runs). -/
def qiRevert (d : ODict) (qi : QueueIterator) : Except Err Unit × QueueIterator :=
  let c := qi.count - 1
  if c = 0 then (.error .zeroDivisionError, ⟨c, qi.pos⟩)
  else
    let index : Int := Int.fmod (d.live.length : Int) c
    match advanceN d index.toNat none with
    | (.ok _, pos) => (.ok (), ⟨c, pos⟩)
    | (.error e, pos) => (.error e, ⟨c, pos⟩)

/-- A stored job: the tuple `(data, tasks, queues)` indexed by
`JOB_DATA`, `JOB_TASKS`, `JOB_QUEUES`; the two memberships are Python
sets. -/
structure JobRec where
  data : String
  tasks : List String
  queues : List Int
deriving DecidableEq, Repr

/-- The whole `Jobs` store: the four dictionaries built in
`Jobs.__init__`. -/
structure Store where
  queues : List (Int × ODict)
  queue_iter : List (Int × QueueIterator)
  tasks : List (String × List String)
  jobs : List (String × JobRec)
deriving DecidableEq, Repr

/-- The store as freshly constructed. -/
def Store.empty : Store := ⟨[], [], [], []⟩

namespace Jobs

/-- Tail of `Jobs.add` once the job record is settled: merge the task and
queue ids into the job's sets, store the record, lazily create the queue
(with a fresh cursor) and insert the job at timestamp 0 when absent, and
lazily create the task set and insert the job. -/
def addIndexes (job_id task_id : String) (queue_id : Int) (job : JobRec) (s : Store) :
    Except Err Unit × Store :=
  let job1 : JobRec :=
    { job with tasks := addSet task_id job.tasks, queues := addSet queue_id job.queues }
  let jobs1 := setKV job_id job1 s.jobs
  let qpair :=
    match lookupKV queue_id s.queues with
    | none =>
      (setKV queue_id (ODict.set ODict.empty job_id 0) s.queues,
       setKV queue_id QueueIterator.fresh s.queue_iter)
    | some d =>
      match d.lookup job_id with
      | some _ => (s.queues, s.queue_iter)
      | none => (setKV queue_id (d.set job_id 0) s.queues, s.queue_iter)
  let tasks1 :=
    match lookupKV task_id s.tasks with
    | none => setKV task_id [job_id] s.tasks
    | some tset => setKV task_id (addSet job_id tset) s.tasks
  (.ok (), { queues := qpair.1, queue_iter := qpair.2, tasks := tasks1, jobs := jobs1 })

/-- `Jobs.add(job_id, task_id, queue_id, data)`: store a job into a queue.
A re-add whose `data` differs from the stored payload raises `ValueError`
before any mutation. -/
def add (job_id task_id : String) (queue_id : Int) (data : String) (s : Store) :
    Except Err Unit × Store :=
  match lookupKV job_id s.jobs with
  | some job =>
    if data = job.data then addIndexes job_id task_id queue_id job s
    else (.error .valueError, s)
  | none => addIndexes job_id task_id queue_id ⟨data, [], []⟩ s

/-- The queue-cleanup loop of `Jobs.remove`: for every queue id the job
belonged to, `self.queues[queue_id]` then `queue.pop(job_id)`; a failed
lookup raises `KeyError`, leaving the mutations already made in place. -/
def removeQueuesLoop (job_id : String) :
    List Int → List (Int × ODict) → Except Err Unit × List (Int × ODict)
  | [], qs => (.ok (), qs)
  | qid :: rest, qs =>
    match lookupKV qid qs with
    | none => (.error .keyError, qs)
    | some d =>
      match d.pop job_id with
      | .error e => (.error e, qs)
      | .ok r => removeQueuesLoop job_id rest (setKV qid r.2 qs)

/-- The task-cleanup loop of `Jobs.remove`: `task.remove(job_id)` raises
`KeyError` when the job is not in the set; a task whose set becomes empty
is popped from the task index. -/
def removeTasksLoop (job_id : String) :
    List String → List (String × List String) → Except Err Unit × List (String × List String)
  | [], ts => (.ok (), ts)
  | tid :: rest, ts =>
    match lookupKV tid ts with
    | none => (.error .keyError, ts)
    | some tset =>
      if job_id ∈ tset then
        let tset1 := tset.filter (fun x => x ≠ job_id)
        if tset1.isEmpty then removeTasksLoop job_id rest (eraseKV tid ts)
        else removeTasksLoop job_id rest (setKV tid tset1 ts)
      else (.error .keyError, ts)

/-- `Jobs.remove(job_id)`: pop the job (`KeyError` when unknown, before
any mutation), then clean its entries out of every queue it belonged to
(queues and their cursors are kept even when empty) and out of every task,
deleting tasks whose set becomes empty. -/
def remove (job_id : String) (s : Store) : Except Err Unit × Store :=
  match lookupKV job_id s.jobs with
  | none => (.error .keyError, s)
  | some job =>
    let jobs1 := eraseKV job_id s.jobs
    match removeQueuesLoop job_id job.queues s.queues with
    | (.error e, qs1) => (.error e, { s with jobs := jobs1, queues := qs1 })
    | (.ok _, qs1) =>
      match removeTasksLoop job_id job.tasks s.tasks with
      | (.error e, ts1) => (.error e, { s with jobs := jobs1, queues := qs1, tasks := ts1 })
      | (.ok _, ts1) => (.ok (), { s with jobs := jobs1, queues := qs1, tasks := ts1 })

/-- Outcome of the per-queue `while True` loop inside `Jobs.pull`:
`ret` = the `return jobs` once `count` is reached, `cont` = the `break`
to the next queue after a revert, `errR` = an escaping exception; each
carries the result list, the queue dictionary and the cursor as mutated
so far. -/
inductive PQRes where
  | ret (jobs : List (String × String)) (d : ODict) (qi : QueueIterator)
  | cont (jobs : List (String × String)) (d : ODict) (qi : QueueIterator)
  | errR (e : Err) (d : ODict) (qi : QueueIterator)
deriving DecidableEq, Repr

/-- The queue dictionary carried by a loop outcome (used to state
invariance lemmas uniformly over the three outcomes). -/
def PQRes.dict : PQRes → ODict
  | .ret _ d _ => d
  | .cont _ d _ => d
  | .errR _ d _ => d

/-- The cursor carried by a loop outcome. -/
def PQRes.iter : PQRes → QueueIterator
  | .ret _ _ qi => qi
  | .cont _ _ qi => qi
  | .errR _ _ qi => qi

/-- The inner `while True` loop of `Jobs.pull` on one queue: advance the
cursor; when the entry's lease has expired (`ctime - dequeue_time >
JOB_LEASE_TIME`) update its timestamp in place, append `(job_id, data)`
and return once `count` jobs are collected; otherwise revert the cursor
and break to the next queue.  The loop recurses only after appending, so
fuel `count + 1` is always sufficient. -/
def pullQueue (jobsStore : List (String × JobRec)) (count : Nat) (now : Int) :
    Nat → ODict → QueueIterator → List (String × String) → PQRes
  | 0, d, qi, _ => .errR .outOfFuel d qi
  | fuel + 1, d, qi, acc =>
    match qiNext d qi with
    | (.error e, qi1) => .errR e d qi1
    | (.ok r, _) =>
      let job_id := r.1.1
      let dequeue_time := r.1.2
      let qi1 := r.2
      let ctime := now
      if ctime - dequeue_time > JOB_LEASE_TIME then
        let d1 := d.set job_id ctime
        match lookupKV job_id jobsStore with
        | none => .errR .keyError d1 qi1
        | some rec =>
          let acc1 := acc ++ [(job_id, rec.data)]
          if count ≤ acc1.length then .ret acc1 d1 qi1
          else pullQueue jobsStore count now fuel d1 qi1 acc1
      else
        match qiRevert d qi1 with
        | (.ok _, qi2) => .cont acc d qi2
        | (.error e, qi2) => .errR e d qi2

/-- The outer loop of `Jobs.pull`: visit the queues in the dictionary's
iteration order, skip empty queues, and run the per-queue loop with that
queue's cursor, threading the mutated dictionaries. -/
def pullQueues (jobsStore : List (String × JobRec)) (count : Nat) (now : Int) :
    List Int → List (Int × ODict) → List (Int × QueueIterator) → List (String × String) →
    Except Err (List (String × String)) × List (Int × ODict) × List (Int × QueueIterator)
  | [], qs, qis, acc => (.ok acc, qs, qis)
  | qid :: rest, qs, qis, acc =>
    match lookupKV qid qs with
    | none => (.error .keyError, qs, qis)
    | some d =>
      if d.live.isEmpty then pullQueues jobsStore count now rest qs qis acc
      else
        match lookupKV qid qis with
        | none => (.error .keyError, qs, qis)
        | some qi =>
          match pullQueue jobsStore count now (count + 1) d qi acc with
          | .ret acc1 d1 qi1 => (.ok acc1, setKV qid d1 qs, setKV qid qi1 qis)
          | .cont acc1 d1 qi1 =>
            pullQueues jobsStore count now rest (setKV qid d1 qs) (setKV qid qi1 qis) acc1
          | .errR e d1 qi1 => (.error e, setKV qid d1 qs, setKV qid qi1 qis)

/-- `Jobs.pull(count)`: pull out a max of `count` jobs.  The code sorts
the queue ids into `queues_ids` but then iterates the raw `self.queues`
dictionary, so the sorted list is dead and the visiting order is the
dictionary's own (insertion/hash) order. -/
def pull (count : Nat) (now : Int) (s : Store) :
    Except Err (List (String × String)) × Store :=
  let _queues_ids := List.insertionSort (fun a b => a ≤ b) (s.queues.map Prod.fst)
  match pullQueues s.jobs count now (s.queues.map Prod.fst) s.queues s.queue_iter [] with
  | (res, qs, qis) => (res, { s with queues := qs, queue_iter := qis })

/-- The read-only snapshot returned by `Jobs.status`. -/
structure StatusView where
  total_jobs : Nat
  total_tasks : Nat
  queues : List (Int × Nat)
deriving DecidableEq, Repr

/-- `Jobs.status`: total job count, total task count and per-queue entry
counts. -/
def status (s : Store) : StatusView :=
  ⟨s.jobs.length, s.tasks.length, s.queues.map (fun p => (p.1, p.2.live.length))⟩

end Jobs

/-! ## Invariants and reachability -/

/-- Queue `q` currently contains job `j` (as recorded in the queue's
ordered mapping). -/
def queueHasJob (s : Store) (q : Int) (j : String) : Prop :=
  ∃ d, lookupKV q s.queues = some d ∧ j ∈ d.keys

/-- Task `t` currently contains job `j` (as recorded in the task index). -/
def taskHasJob (s : Store) (t j : String) : Prop :=
  ∃ ts, lookupKV t s.tasks = some ts ∧ j ∈ ts

/-- Cross-index consistency: every job id appearing in a queue's ordered
mapping or in a task's job set is a key of the job store, and each stored
job's queue set and task set name exactly the queues and tasks whose
collections contain that job id. -/
structure CrossIndexInv (s : Store) : Prop where
  queue_job_stored : ∀ q d, lookupKV q s.queues = some d → ∀ j, j ∈ d.keys →
    ∃ rec, lookupKV j s.jobs = some rec
  task_job_stored : ∀ t ts, lookupKV t s.tasks = some ts → ∀ j, j ∈ ts →
    ∃ rec, lookupKV j s.jobs = some rec
  job_queues_exact : ∀ j rec, lookupKV j s.jobs = some rec →
    ∀ q, q ∈ rec.queues ↔ queueHasJob s q j
  job_tasks_exact : ∀ j rec, lookupKV j s.jobs = some rec →
    ∀ t, t ∈ rec.tasks ↔ taskHasJob s t j

/-- The full inductive invariant of the store: cross-index consistency
plus the bookkeeping facts (duplicate-freedom of all key lists and
membership sets, non-empty task sets, and the queue/cursor indices having
the same key sequence) needed to push it through the operations. -/
structure InvS (s : Store) : Prop where
  jobs_nodup : (s.jobs.map Prod.fst).Nodup
  queues_nodup : (s.queues.map Prod.fst).Nodup
  tasks_nodup : (s.tasks.map Prod.fst).Nodup
  qiter_keys : s.queue_iter.map Prod.fst = s.queues.map Prod.fst
  live_nodup : ∀ q d, lookupKV q s.queues = some d → d.keys.Nodup
  rec_nodup : ∀ j rec, lookupKV j s.jobs = some rec →
    rec.queues.Nodup ∧ rec.tasks.Nodup
  queue_to_job : ∀ q d, lookupKV q s.queues = some d → ∀ j, j ∈ d.keys →
    ∃ rec, lookupKV j s.jobs = some rec ∧ q ∈ rec.queues
  job_to_queue : ∀ j rec, lookupKV j s.jobs = some rec → ∀ q, q ∈ rec.queues →
    ∃ d, lookupKV q s.queues = some d ∧ j ∈ d.keys
  task_nonempty : ∀ t ts, lookupKV t s.tasks = some ts → ts ≠ []
  task_to_job : ∀ t ts, lookupKV t s.tasks = some ts → ∀ j, j ∈ ts →
    ∃ rec, lookupKV j s.jobs = some rec ∧ t ∈ rec.tasks
  job_to_task : ∀ j rec, lookupKV j s.jobs = some rec → ∀ t, t ∈ rec.tasks →
    ∃ ts, lookupKV t s.tasks = some ts ∧ j ∈ ts

/-- States reachable from the fresh store through any finite sequence of
`add`, `remove` and `pull` calls (including calls that raise: the store
they leave behind is threaded). -/
inductive Reach : Store → Prop where
  | empty : Reach Store.empty
  | add (j t : String) (q : Int) (dat : String) {s : Store} :
      Reach s → Reach (Jobs.add j t q dat s).2
  | remove (j : String) {s : Store} : Reach s → Reach (Jobs.remove j s).2
  | pull (count : Nat) (now : Int) {s : Store} :
      Reach s → Reach (Jobs.pull count now s).2

/-- States reachable through `add` and `pull` only (no `remove`), with
every `pull` instant past the lease duration — as any real wall clock
instant is.  On these histories the cursors never see deleted nodes. -/
inductive ReachAP : Store → Prop where
  | empty : ReachAP Store.empty
  | add (j t : String) (q : Int) (dat : String) {s : Store} :
      ReachAP s → ReachAP (Jobs.add j t q dat s).2
  | pull (count : Nat) (now : Int) {s : Store} :
      ReachAP s → JOB_LEASE_TIME < now → ReachAP (Jobs.pull count now s).2

/-- Per-queue cursor and dictionary facts threaded through the outer loop
of `pull`: every queue in the map has no dead nodes, duplicate-free node
ids all below the allocator, every key backed by a stored job, and any
cursor stored for that queue points at a live node (or is fresh) with a
net advance count that is positive — or zero while every timestamp in the
queue is still 0 (no entry ever dispatched). -/
def QInv (jobsStore : List (String × JobRec)) (qs : List (Int × ODict))
    (qis : List (Int × QueueIterator)) : Prop :=
  ∀ q d, lookupKV q qs = some d →
    d.dead = [] ∧ (d.live.map Node.nid).Nodup ∧
    (∀ n, n ∈ d.live → n.nid < d.nextNid) ∧
    (∀ k, k ∈ d.keys → ∃ rec, lookupKV k jobsStore = some rec) ∧
    (∀ qi, lookupKV q qis = some qi →
      (qi.pos = none ∨ ∃ p, qi.pos = some p ∧ p ∈ d.live.map Node.nid) ∧
      (1 ≤ qi.count ∨ (qi.count = 0 ∧ ∀ n, n ∈ d.live → n.val = 0)))

/-- The extra cursor facts that hold on remove-free histories: the full
inductive invariant together with `QInv` over the store's own three
indices.  On such histories the suspended generators never sit on deleted
nodes, so `pull` cannot raise. -/
structure PInv (s : Store) : Prop where
  inv : InvS s
  cursors : QInv s.jobs s.queues s.queue_iter

/-! ## Concrete traces used as witnesses and counterexamples -/

/-- Store holding `j1` and `j2` in queue 1, both under task `t1` (the
concrete scenario of the spec). -/
def traceC9 : Store :=
  (Jobs.add "j2" "t1" 1 "y" (Jobs.add "j1" "t1" 1 "x" Store.empty).2).2

/-- Store whose queues were created in the order 9 then 1 (one fresh job
each), so the dictionary's iteration order differs from the ascending
order of the queue ids. -/
def traceC1 : Store :=
  (Jobs.add "jB" "t" 1 "y" (Jobs.add "jA" "t" 9 "x" Store.empty).2).2

/-- Store holding the single job `j` in the two queues 1 and 2 (identical
payload, so the second `add` succeeds). -/
def traceC3 : Store :=
  (Jobs.add "j" "t" 2 "x" (Jobs.add "j" "t" 1 "x" Store.empty).2).2

/-- Store reached by adding `A`, `B` to queue 1 and pulling once at time
1000 (leasing `A`) and once at time 1100 (leasing `B`): queue 1 maps
`A ↦ 1000, B ↦ 1100` and its cursor has advanced twice. -/
def traceC4 : Store :=
  (Jobs.pull 1 1100 (Jobs.pull 1 1000
    (Jobs.add "B" "t" 1 "y" (Jobs.add "A" "t" 1 "x" Store.empty).2).2).2).2

/-- Store reached by adding `A`, `B`, `C`, `D` to queue 1, pulling two
jobs at time 1000 (the cursor's suspended generator rests on `B`'s node),
then removing `B` and `C`: the generator position and `C`'s frozen
successor pointer both name deleted nodes. -/
def traceC2 : Store :=
  (Jobs.remove "C" (Jobs.remove "B" (Jobs.pull 2 1000
    (Jobs.add "D" "t" 1 "x" (Jobs.add "C" "t" 1 "x"
      (Jobs.add "B" "t" 1 "x" (Jobs.add "A" "t" 1 "x" Store.empty).2).2).2).2).2).2).2

/-! ## Association-list toolkit -/

section AListLemmas

variable {κ α : Type} [DecidableEq κ]

theorem lookupKV_append (k : κ) (l₁ l₂ : List (κ × α)) :
    lookupKV k (l₁ ++ l₂) =
      match lookupKV k l₁ with
      | some v => some v
      | none => lookupKV k l₂ := by
  induction l₁ with
  | nil => simp [lookupKV]
  | cons p rest ih =>
    by_cases hp : p.1 = k
    · simp [lookupKV, hp]
    · simp [lookupKV, hp, ih]

theorem lookupKV_mapUpdate (k k' : κ) (v : α) (l : List (κ × α)) :
    lookupKV k' (l.map (fun p => if p.1 = k then (p.1, v) else p)) =
      if k' = k then (lookupKV k' l).map (fun _ => v) else lookupKV k' l := by
  induction l with
  | nil => by_cases h : k' = k <;> simp [lookupKV, h]
  | cons p rest ih =>
    by_cases hk : k' = k
    · subst hk
      by_cases hp : p.1 = k'
      · simp [lookupKV, hp]
      · simp only [List.map_cons, if_neg hp, lookupKV, ih, if_pos rfl]
    · by_cases hp : p.1 = k
      · have hp' : p.1 ≠ k' := fun hh => hk (hh ▸ hp)
        simp only [List.map_cons, if_pos hp, lookupKV, if_neg hp', ih, if_neg hk]
      · by_cases hp' : p.1 = k'
        · simp only [List.map_cons, if_neg hp, lookupKV, if_pos hp', if_neg hk]
        · simp only [List.map_cons, if_neg hp, lookupKV, if_neg hp', ih, if_neg hk]

theorem lookupKV_eq_none {k : κ} {l : List (κ × α)} :
    lookupKV k l = none ↔ k ∉ l.map Prod.fst := by
  induction l with
  | nil => simp [lookupKV]
  | cons p rest ih =>
    by_cases h : p.1 = k
    · simp [lookupKV, h]
    · simp only [lookupKV, if_neg h, List.map_cons, List.mem_cons, ih]
      constructor
      · intro hn hm
        rcases hm with hm | hm
        · exact h hm.symm
        · exact hn hm
      · intro hn
        exact fun hm => hn (Or.inr hm)

theorem lookupKV_mem {k : κ} {v : α} {l : List (κ × α)} (h : lookupKV k l = some v) :
    (k, v) ∈ l := by
  induction l with
  | nil => simp [lookupKV] at h
  | cons p rest ih =>
    by_cases hp : p.1 = k
    · rw [lookupKV, if_pos hp] at h
      injection h with h
      exact List.mem_cons.2 (Or.inl (by rw [← hp, ← h]))
    · rw [lookupKV, if_neg hp] at h
      exact List.mem_cons_of_mem _ (ih h)

theorem mem_keys_of_lookupKV {k : κ} {v : α} {l : List (κ × α)}
    (h : lookupKV k l = some v) : k ∈ l.map Prod.fst :=
  List.mem_map.2 ⟨(k, v), lookupKV_mem h, rfl⟩

theorem lookupKV_isSome_of_mem {k : κ} {l : List (κ × α)} (h : k ∈ l.map Prod.fst) :
    ∃ v, lookupKV k l = some v := by
  rcases hl : lookupKV k l with _ | v
  · exact absurd h (lookupKV_eq_none.1 hl)
  · exact ⟨v, rfl⟩

theorem setKV_of_some {k : κ} {w : α} {l : List (κ × α)}
    (h : lookupKV k l = some w) (v : α) :
    setKV k v l = l.map (fun p => if p.1 = k then (p.1, v) else p) := by
  unfold setKV
  rw [h]

theorem setKV_of_none {k : κ} {l : List (κ × α)} (h : lookupKV k l = none) (v : α) :
    setKV k v l = l ++ [(k, v)] := by
  unfold setKV
  rw [h]

theorem lookupKV_setKV_self (k : κ) (v : α) (l : List (κ × α)) :
    lookupKV k (setKV k v l) = some v := by
  rcases h : lookupKV k l with _ | w
  · rw [setKV_of_none h, lookupKV_append, h, lookupKV, lookupKV]
    simp
  · rw [setKV_of_some h, lookupKV_mapUpdate, if_pos rfl, h]
    rfl

theorem lookupKV_setKV_ne {k k' : κ} (h : k' ≠ k) (v : α) (l : List (κ × α)) :
    lookupKV k' (setKV k v l) = lookupKV k' l := by
  rcases hl : lookupKV k l with _ | w
  · rw [setKV_of_none hl, lookupKV_append]
    rcases h2 : lookupKV k' l with _ | u
    · have h' : ¬(k = k') := fun hh => h hh.symm
      simp [lookupKV, h']
    · rfl
  · rw [setKV_of_some hl, lookupKV_mapUpdate, if_neg h]

theorem map_fst_mapUpdate (k : κ) (v : α) (l : List (κ × α)) :
    (l.map (fun p => if p.1 = k then (p.1, v) else p)).map Prod.fst = l.map Prod.fst := by
  rw [List.map_map]
  apply List.map_congr_left
  intro p _
  by_cases hp : p.1 = k <;> simp [hp]

theorem map_fst_setKV_of_some {k : κ} {v₀ : α} {l : List (κ × α)}
    (h : lookupKV k l = some v₀) (v : α) :
    (setKV k v l).map Prod.fst = l.map Prod.fst := by
  rw [setKV_of_some h]
  exact map_fst_mapUpdate k v l

theorem map_fst_setKV_of_none {k : κ} {l : List (κ × α)}
    (h : lookupKV k l = none) (v : α) :
    (setKV k v l).map Prod.fst = l.map Prod.fst ++ [k] := by
  rw [setKV_of_none h]
  simp

theorem setKV_setKV_same (k : κ) (v : α) (l : List (κ × α)) :
    setKV k v (setKV k v l) = setKV k v l := by
  rw [setKV_of_some (lookupKV_setKV_self k v l) v]
  rcases h : lookupKV k l with _ | w
  · rw [setKV_of_none h v, List.map_append]
    congr 1
    · refine (List.map_congr_left ?_).trans (List.map_id l)
      intro p hp
      have hk : k ∉ l.map Prod.fst := lookupKV_eq_none.1 h
      have hne : p.1 ≠ k := fun hh => hk (hh ▸ List.mem_map.2 ⟨p, hp, rfl⟩)
      simp [hne]
    · simp
  · rw [setKV_of_some h v, List.map_map]
    apply List.map_congr_left
    intro p _
    by_cases hp : p.1 = k <;> simp [hp]

theorem eraseKV_cons_self {p : κ × α} {k : κ} (hp : p.1 = k) (rest : List (κ × α)) :
    eraseKV k (p :: rest) = eraseKV k rest := by
  simp [eraseKV, List.filter_cons, hp]

theorem eraseKV_cons_ne {p : κ × α} {k : κ} (hp : p.1 ≠ k) (rest : List (κ × α)) :
    eraseKV k (p :: rest) = p :: eraseKV k rest := by
  simp [eraseKV, List.filter_cons, hp]

theorem lookupKV_eraseKV_self (k : κ) (l : List (κ × α)) :
    lookupKV k (eraseKV k l) = none := by
  induction l with
  | nil => rfl
  | cons p rest ih =>
    by_cases hp : p.1 = k
    · rw [eraseKV_cons_self hp]
      exact ih
    · rw [eraseKV_cons_ne hp, lookupKV, if_neg hp]
      exact ih

theorem lookupKV_eraseKV_ne {k k' : κ} (h : k' ≠ k) (l : List (κ × α)) :
    lookupKV k' (eraseKV k l) = lookupKV k' l := by
  induction l with
  | nil => rfl
  | cons p rest ih =>
    by_cases hp : p.1 = k
    · have hp' : p.1 ≠ k' := fun hh => h (hh ▸ hp)
      rw [eraseKV_cons_self hp, lookupKV, if_neg hp']
      exact ih
    · rw [eraseKV_cons_ne hp, lookupKV, lookupKV]
      by_cases hp' : p.1 = k' <;> simp [hp', ih]

theorem map_fst_eraseKV (k : κ) (l : List (κ × α)) :
    (eraseKV k l).map Prod.fst = (l.map Prod.fst).filter (fun x => x ≠ k) := by
  induction l with
  | nil => rfl
  | cons p rest ih =>
    by_cases hp : p.1 = k
    · rw [eraseKV_cons_self hp, ih, List.map_cons, List.filter_cons]
      simp [hp]
    · rw [eraseKV_cons_ne hp, List.map_cons, List.map_cons, List.filter_cons, ih]
      simp [hp]

theorem mem_addSet_self {β : Type} [DecidableEq β] (x : β) (l : List β) :
    x ∈ addSet x l := by
  unfold addSet
  by_cases h : x ∈ l <;> simp [h]

theorem addSet_of_mem {β : Type} [DecidableEq β] {x : β} {l : List β} (h : x ∈ l) :
    addSet x l = l := by
  simp [addSet, h]

theorem mem_addSet_iff {β : Type} [DecidableEq β] {x y : β} {l : List β} :
    y ∈ addSet x l ↔ y ∈ l ∨ y = x := by
  unfold addSet
  by_cases h : x ∈ l
  · simp [h]
    intro hy
    rw [hy]
    exact h
  · simp [h]

theorem addSet_nodup {β : Type} [DecidableEq β] {x : β} {l : List β} (h : l.Nodup) :
    (addSet x l).Nodup := by
  unfold addSet
  by_cases hx : x ∈ l
  · simpa [hx]
  · rw [if_neg hx]
    refine List.Nodup.append h (List.nodup_singleton x) ?_
    intro a ha hax
    rw [List.mem_singleton] at hax
    exact hx (hax ▸ ha)

theorem addSet_addSet {β : Type} [DecidableEq β] (x : β) (l : List β) :
    addSet x (addSet x l) = addSet x l :=
  addSet_of_mem (mem_addSet_self x l)

theorem addSet_singleton_self {β : Type} [DecidableEq β] (x : β) :
    addSet x [x] = [x] :=
  addSet_of_mem (by simp)

end AListLemmas

/-! ## OrderedDict lemmas -/

theorem findKey_mapUpdate (k k' : String) (v : Int) (l : List Node) :
    (l.map (fun n => if n.key = k then { n with val := v } else n)).find?
        (fun n => n.key = k') =
      if k' = k then (l.find? (fun n => n.key = k')).map (fun n => { n with val := v })
      else l.find? (fun n => n.key = k') := by
  induction l with
  | nil => by_cases h : k' = k <;> simp [h]
  | cons n rest ih =>
    by_cases hk : k' = k
    · subst hk
      by_cases hn : n.key = k'
      · simp [List.find?_cons, hn]
      · simp [List.find?_cons, hn, ih]
    · by_cases hn : n.key = k
      · have hn' : ¬(n.key = k') := fun hh => hk (hh ▸ hn)
        have hkk : ¬(k = k') := fun hh => hk hh.symm
        simp [List.find?_cons, hn, hn', ih, hk, hkk]
      · by_cases hn' : n.key = k'
        · simp [List.find?_cons, hn, hn', hk]
        · simp [List.find?_cons, hn, hn', ih, hk]

theorem ODict.lookup_eq_none {d : ODict} {k : String} :
    d.lookup k = none ↔ k ∉ d.keys := by
  unfold ODict.lookup ODict.keys
  rw [Option.map_eq_none', List.find?_eq_none]
  constructor
  · intro h hk
    rcases List.mem_map.1 hk with ⟨n, hn, hkey⟩
    exact absurd (by simpa using hkey) (by simpa using h n hn)
  · intro h n hn hkey
    exact h (List.mem_map.2 ⟨n, hn, by simpa using hkey⟩)

theorem ODict.lookup_some_mem {d : ODict} {k : String} {v : Int}
    (h : d.lookup k = some v) : ∃ n, n ∈ d.live ∧ n.key = k ∧ n.val = v := by
  unfold ODict.lookup at h
  rcases Option.map_eq_some'.1 h with ⟨n, hfind, hval⟩
  exact ⟨n, List.mem_of_find?_eq_some hfind, by simpa using List.find?_some hfind, hval⟩

theorem ODict.lookup_isSome_of_mem_keys {d : ODict} {k : String} (h : k ∈ d.keys) :
    ∃ v, d.lookup k = some v := by
  rcases hl : d.lookup k with _ | v
  · exact absurd h (ODict.lookup_eq_none.1 hl)
  · exact ⟨v, rfl⟩

theorem ODict.mem_keys_of_lookup {d : ODict} {k : String} {v : Int}
    (h : d.lookup k = some v) : k ∈ d.keys := by
  by_contra hk
  rw [← ODict.lookup_eq_none] at hk
  rw [h] at hk
  cases hk

theorem ODict.set_of_some {d : ODict} {k : String} {w : Int}
    (h : d.lookup k = some w) (v : Int) :
    d.set k v =
      { d with live := d.live.map (fun n => if n.key = k then { n with val := v } else n) } := by
  unfold ODict.set
  rw [h]

theorem ODict.set_of_none {d : ODict} {k : String} (h : d.lookup k = none) (v : Int) :
    d.set k v =
      { d with live := d.live ++ [⟨d.nextNid, k, v⟩], nextNid := d.nextNid + 1 } := by
  unfold ODict.set
  rw [h]

theorem ODict.lookup_set_self (d : ODict) (k : String) (v : Int) :
    (d.set k v).lookup k = some v := by
  rcases h : d.lookup k with _ | w
  · rw [ODict.set_of_none h]
    unfold ODict.lookup at h ⊢
    rw [Option.map_eq_none'] at h
    simp only [List.find?_append, h, Option.none_or]
    simp [List.find?]
  · rw [ODict.set_of_some h]
    unfold ODict.lookup at h ⊢
    simp only [findKey_mapUpdate, if_pos rfl]
    rcases hf : d.live.find? (fun n => n.key = k) with _ | n
    · rw [hf] at h
      simp at h
    · rw [hf]
      simp

theorem ODict.lookup_set_ne {d : ODict} {k k' : String} (h : k' ≠ k) (v : Int) :
    (d.set k v).lookup k' = d.lookup k' := by
  rcases hl : d.lookup k with _ | w
  · rw [ODict.set_of_none hl]
    unfold ODict.lookup
    simp only [List.find?_append]
    have : List.find? (fun n => n.key = k') [(⟨d.nextNid, k, v⟩ : Node)] = none := by
      have hkk : ¬(k = k') := fun hh => h hh.symm
      simp [List.find?_cons, hkk]
    rw [this]
    simp
  · rw [ODict.set_of_some hl]
    unfold ODict.lookup
    rw [findKey_mapUpdate, if_neg h]

theorem ODict.keys_set_of_some {d : ODict} {k : String} {w : Int}
    (h : d.lookup k = some w) (v : Int) : (d.set k v).keys = d.keys := by
  rw [ODict.set_of_some h]
  unfold ODict.keys
  rw [List.map_map]
  apply List.map_congr_left
  intro n _
  by_cases hn : n.key = k <;> simp [hn]

theorem ODict.dead_set (d : ODict) (k : String) (v : Int) : (d.set k v).dead = d.dead := by
  unfold ODict.set
  rcases d.lookup k with _ | w <;> rfl

theorem ODict.nextNid_set_of_some {d : ODict} {k : String} {w : Int}
    (h : d.lookup k = some w) (v : Int) : (d.set k v).nextNid = d.nextNid := by
  rw [ODict.set_of_some h]

/-! ## Behaviour of add: conflict handling and idempotence -/

theorem addIndexes_fst (j t : String) (q : Int) (job : JobRec) (s : Store) :
    (Jobs.addIndexes j t q job s).1 = .ok () := rfl

theorem add_addIndexes (j t : String) (q : Int) (job : JobRec) (s : Store) :
    Jobs.add j t q job.data (Jobs.addIndexes j t q job s).2
      = (.ok (), (Jobs.addIndexes j t q job s).2) := by
  rcases hq : lookupKV q s.queues with _ | d
  case none =>
    rcases ht : lookupKV t s.tasks with _ | ts
    all_goals {
      simp only [Jobs.addIndexes, hq, ht]
      simp only [Jobs.add, lookupKV_setKV_self, if_true]
      simp only [Jobs.addIndexes, lookupKV_setKV_self, ODict.lookup_set_self,
        addSet_addSet, addSet_singleton_self, setKV_setKV_same]
    }
  case some =>
    rcases hd : d.lookup j with _ | w <;>
      rcases ht : lookupKV t s.tasks with _ | ts
    all_goals {
      simp only [Jobs.addIndexes, hq, ht, hd]
      simp only [Jobs.add, lookupKV_setKV_self, if_true]
      simp only [Jobs.addIndexes, lookupKV_setKV_self, ODict.lookup_set_self, hq, hd, ht,
        addSet_addSet, addSet_singleton_self, setKV_setKV_same]
    }

/-- C7: calling `add(j, t, q, data)` twice with identical arguments leaves
the store in exactly the state one call produces: the second call finds
the job present with equal payload, the task and queue memberships behave
as sets (no duplicates are appended), the queue entry is not re-inserted
so its dispatch timestamp — its lease — is untouched, and the second call
succeeds.  A conflicting first call is likewise replayed identically, so
the equation holds for every starting store. -/
theorem C7_idempotent_readd (j t : String) (q : Int) (dat : String) (s : Store) :
    Jobs.add j t q dat (Jobs.add j t q dat s).2 = Jobs.add j t q dat s := by
  rcases h : lookupKV j s.jobs with _ | job
  · have e1 : Jobs.add j t q dat s = Jobs.addIndexes j t q ⟨dat, [], []⟩ s := by
      simp [Jobs.add, h]
    rw [e1]
    have := add_addIndexes j t q ⟨dat, [], []⟩ s
    simp only [JobRec.data] at this
    rw [this]
    exact (addIndexes_fst j t q ⟨dat, [], []⟩ s) ▸ rfl
  · by_cases hd : dat = job.data
    · have e1 : Jobs.add j t q dat s = Jobs.addIndexes j t q job s := by
        simp [Jobs.add, h, hd]
      rw [e1]
      subst hd
      exact (add_addIndexes j t q job s).trans rfl
    · have e1 : Jobs.add j t q dat s = (.error .valueError, s) := by
        simp [Jobs.add, h, hd]
      rw [e1]
      exact e1

/-- C5: conflict detection with atomicity: when `j` exists with a stored
payload different from `dat`, `add` fails with the conflict error
(`ValueError` in the code, the spec's `ConflictError`) and returns the
store exactly as it was — no index is touched; and this payload mismatch
is the only way `add` can fail. -/
theorem C5_conflict_detection (s : Store) (j t : String) (q : Int) (dat : String) :
    (∀ rec, lookupKV j s.jobs = some rec → rec.data ≠ dat →
      Jobs.add j t q dat s = (.error .valueError, s))
    ∧ (∀ e, (Jobs.add j t q dat s).1 = .error e →
      e = .valueError ∧ (Jobs.add j t q dat s).2 = s
        ∧ ∃ rec, lookupKV j s.jobs = some rec ∧ rec.data ≠ dat) := by
  constructor
  · intro rec hrec hne
    have hd : ¬(dat = rec.data) := fun hh => hne hh.symm
    simp [Jobs.add, hrec, hd]
  · intro e he
    rcases h : lookupKV j s.jobs with _ | job
    · rw [show Jobs.add j t q dat s = Jobs.addIndexes j t q ⟨dat, [], []⟩ s from by
        simp [Jobs.add, h]] at he
      rw [addIndexes_fst] at he
      cases he
    · by_cases hd : dat = job.data
      · rw [show Jobs.add j t q dat s = Jobs.addIndexes j t q job s from by
          simp [Jobs.add, h, hd]] at he
        rw [addIndexes_fst] at he
        cases he
      · have e1 : Jobs.add j t q dat s = (.error .valueError, s) := by
          simp [Jobs.add, h, hd]
        rw [e1] at he
        refine ⟨by injection he with h2; exact h2.symm, by rw [e1], job, rfl,
          fun hh => hd hh.symm⟩

/-- Witness for C5: a job stored with payload `x` rejects a re-add with
payload `y`, leaving the store untouched. -/
theorem C5_conflict_detection_witness :
    Jobs.add "j" "t2" 2 "y" (Jobs.add "j" "t1" 1 "x" Store.empty).2
      = (.error .valueError, (Jobs.add "j" "t1" 1 "x" Store.empty).2) :=
  (C5_conflict_detection (Jobs.add "j" "t1" 1 "x" Store.empty).2 "j" "t2" 2 "y").1
    ⟨"x", ["t1"], [1]⟩ rfl (by decide)

/-! ## Invariant preservation -/

theorem ODict.keys_set_of_none {d : ODict} {k : String} (h : d.lookup k = none) (v : Int) :
    (d.set k v).keys = d.keys ++ [k] := by
  rw [ODict.set_of_none h]
  unfold ODict.keys
  simp

theorem addIndexes_jobs (j t : String) (q : Int) (job : JobRec) (s : Store) :
    (Jobs.addIndexes j t q job s).2.jobs
      = setKV j { job with tasks := addSet t job.tasks, queues := addSet q job.queues }
          s.jobs := rfl

theorem addIndexes_queues_none {q : Int} {s : Store} (j t : String) (job : JobRec)
    (hq : lookupKV q s.queues = none) :
    (Jobs.addIndexes j t q job s).2.queues = setKV q (ODict.empty.set j 0) s.queues
    ∧ (Jobs.addIndexes j t q job s).2.queue_iter
        = setKV q QueueIterator.fresh s.queue_iter := by
  constructor <;> simp only [Jobs.addIndexes, hq]

theorem addIndexes_queues_mem {q : Int} {s : Store} {d : ODict} {w : Int} (j t : String)
    (job : JobRec) (hq : lookupKV q s.queues = some d) (hd : d.lookup j = some w) :
    (Jobs.addIndexes j t q job s).2.queues = s.queues
    ∧ (Jobs.addIndexes j t q job s).2.queue_iter = s.queue_iter := by
  constructor <;> simp only [Jobs.addIndexes, hq, hd]

theorem addIndexes_queues_new {q : Int} {s : Store} {d : ODict} (j t : String)
    (job : JobRec) (hq : lookupKV q s.queues = some d) (hd : d.lookup j = none) :
    (Jobs.addIndexes j t q job s).2.queues = setKV q (d.set j 0) s.queues
    ∧ (Jobs.addIndexes j t q job s).2.queue_iter = s.queue_iter := by
  constructor <;> simp only [Jobs.addIndexes, hq, hd]

theorem addIndexes_tasks_none {t : String} {s : Store} (j : String) (q : Int)
    (job : JobRec) (ht : lookupKV t s.tasks = none) :
    (Jobs.addIndexes j t q job s).2.tasks = setKV t [j] s.tasks := by
  simp only [Jobs.addIndexes, ht]

theorem addIndexes_tasks_some {t : String} {s : Store} {ts : List String} (j : String)
    (q : Int) (job : JobRec) (ht : lookupKV t s.tasks = some ts) :
    (Jobs.addIndexes j t q job s).2.tasks = setKV t (addSet j ts) s.tasks := by
  simp only [Jobs.addIndexes, ht]

theorem InvS_empty : InvS Store.empty := by
  refine ⟨?_, ?_, ?_, ?_, ?_, ?_, ?_, ?_, ?_, ?_, ?_⟩ <;>
    first
      | exact List.nodup_nil
      | rfl
      | (intro a b hab
         exact absurd hab (by simp [Store.empty, lookupKV]))

theorem InvS_addIndexes {s : Store} (h : InvS s) {j : String} (t : String) (q : Int)
    {job : JobRec}
    (hjob : lookupKV j s.jobs = some job
      ∨ (lookupKV j s.jobs = none ∧ job.tasks = [] ∧ job.queues = [])) :
    InvS (Jobs.addIndexes j t q job s).2 := by
  set s1 := (Jobs.addIndexes j t q job s).2 with hs1
  set job1 : JobRec :=
    { job with tasks := addSet t job.tasks, queues := addSet q job.queues } with hjob1
  have HJself : lookupKV j s1.jobs = some job1 := by
    rw [hs1, addIndexes_jobs]
    exact lookupKV_setKV_self j job1 s.jobs
  have HJother : ∀ j2, j2 ≠ j → lookupKV j2 s1.jobs = lookupKV j2 s.jobs := by
    intro j2 hne
    rw [hs1, addIndexes_jobs]
    exact lookupKV_setKV_ne hne _ _
  have HJkeys : (lookupKV j s.jobs = none
        ∧ s1.jobs.map Prod.fst = s.jobs.map Prod.fst ++ [j])
      ∨ ((∃ r, lookupKV j s.jobs = some r)
        ∧ s1.jobs.map Prod.fst = s.jobs.map Prod.fst) := by
    rcases hl : lookupKV j s.jobs with _ | r
    · exact Or.inl ⟨rfl, by rw [hs1, addIndexes_jobs]; exact map_fst_setKV_of_none hl _⟩
    · exact Or.inr ⟨⟨r, rfl⟩, by rw [hs1, addIndexes_jobs]; exact map_fst_setKV_of_some hl _⟩
  have HQother : ∀ q2, q2 ≠ q → lookupKV q2 s1.queues = lookupKV q2 s.queues := by
    intro q2 hne
    rcases hq : lookupKV q s.queues with _ | d
    · rw [hs1, (addIndexes_queues_none j t job hq).1]
      exact lookupKV_setKV_ne hne _ _
    · rcases hd : d.lookup j with _ | w
      · rw [hs1, (addIndexes_queues_new j t job hq hd).1]
        exact lookupKV_setKV_ne hne _ _
      · rw [hs1, (addIndexes_queues_mem j t job hq hd).1]
  have HQmain : ∃ dq, lookupKV q s1.queues = some dq ∧ j ∈ dq.keys ∧ dq.keys.Nodup ∧
      (∀ k, k ∈ dq.keys ↔ (k = j ∨ ∃ d0, lookupKV q s.queues = some d0 ∧ k ∈ d0.keys)) := by
    rcases hq : lookupKV q s.queues with _ | d
    · refine ⟨ODict.empty.set j 0, ?_, List.mem_singleton.2 rfl, List.nodup_singleton j, ?_⟩
      · rw [hs1, (addIndexes_queues_none j t job hq).1]
        exact lookupKV_setKV_self _ _ _
      · intro k
        constructor
        · intro hk
          exact Or.inl (List.mem_singleton.1 hk)
        · rintro (rfl | ⟨d0, hd0, _⟩)
          · exact List.mem_singleton.2 rfl
          · cases hd0
    · rcases hd : d.lookup j with _ | w
      · refine ⟨d.set j 0, ?_, ?_, ?_, ?_⟩
        · rw [hs1, (addIndexes_queues_new j t job hq hd).1]
          exact lookupKV_setKV_self _ _ _
        · rw [ODict.keys_set_of_none hd]
          exact List.mem_append.2 (Or.inr (List.mem_singleton.2 rfl))
        · rw [ODict.keys_set_of_none hd]
          refine List.Nodup.append (h.live_nodup q d hq) (List.nodup_singleton j) ?_
          intro a ha hax
          rw [List.mem_singleton] at hax
          subst hax
          exact absurd ha (ODict.lookup_eq_none.1 hd)
        · intro k
          rw [ODict.keys_set_of_none hd, List.mem_append, List.mem_singleton]
          constructor
          · rintro (hk | rfl)
            · exact Or.inr ⟨d, rfl, hk⟩
            · exact Or.inl rfl
          · rintro (rfl | ⟨d0, hd0, hk⟩)
            · exact Or.inr rfl
            · exact Or.inl ((Option.some.inj hd0) ▸ hk)
      · refine ⟨d, ?_, ODict.mem_keys_of_lookup hd, h.live_nodup q d hq, ?_⟩
        · rw [hs1, (addIndexes_queues_mem j t job hq hd).1]
          exact hq
        · intro k
          constructor
          · intro hk
            exact Or.inr ⟨d, rfl, hk⟩
          · rintro (rfl | ⟨d0, hd0, hk⟩)
            · exact ODict.mem_keys_of_lookup hd
            · exact (Option.some.inj hd0) ▸ hk
  have HQkeys : (lookupKV q s.queues = none
        ∧ s1.queues.map Prod.fst = s.queues.map Prod.fst ++ [q]
        ∧ s1.queue_iter = setKV q QueueIterator.fresh s.queue_iter)
      ∨ ((∃ d, lookupKV q s.queues = some d)
        ∧ s1.queues.map Prod.fst = s.queues.map Prod.fst
        ∧ s1.queue_iter = s.queue_iter) := by
    rcases hq : lookupKV q s.queues with _ | d
    · refine Or.inl ⟨rfl, ?_, (addIndexes_queues_none j t job hq).2⟩
      rw [hs1, (addIndexes_queues_none j t job hq).1]
      exact map_fst_setKV_of_none hq _
    · rcases hd : d.lookup j with _ | w
      · refine Or.inr ⟨⟨d, rfl⟩, ?_, (addIndexes_queues_new j t job hq hd).2⟩
        rw [hs1, (addIndexes_queues_new j t job hq hd).1]
        exact map_fst_setKV_of_some hq _
      · exact Or.inr ⟨⟨d, rfl⟩, by rw [hs1, (addIndexes_queues_mem j t job hq hd).1],
          (addIndexes_queues_mem j t job hq hd).2⟩
  have HTother : ∀ t2, t2 ≠ t → lookupKV t2 s1.tasks = lookupKV t2 s.tasks := by
    intro t2 hne
    rcases ht : lookupKV t s.tasks with _ | ts
    · rw [hs1, addIndexes_tasks_none j q job ht]
      exact lookupKV_setKV_ne hne _ _
    · rw [hs1, addIndexes_tasks_some j q job ht]
      exact lookupKV_setKV_ne hne _ _
  have HTmain : ∃ tset, lookupKV t s1.tasks = some tset ∧ j ∈ tset ∧ tset ≠ [] ∧
      (∀ x, x ∈ tset ↔ (x = j ∨ ∃ ts0, lookupKV t s.tasks = some ts0 ∧ x ∈ ts0)) := by
    rcases ht : lookupKV t s.tasks with _ | ts
    · refine ⟨[j], ?_, List.mem_singleton.2 rfl, by simp, ?_⟩
      · rw [hs1, addIndexes_tasks_none j q job ht]
        exact lookupKV_setKV_self _ _ _
      · intro x
        rw [List.mem_singleton]
        constructor
        · exact Or.inl
        · rintro (rfl | ⟨ts0, hts0, _⟩)
          · rfl
          · cases hts0
    · refine ⟨addSet j ts, ?_, mem_addSet_self j ts, ?_, ?_⟩
      · rw [hs1, addIndexes_tasks_some j q job ht]
        exact lookupKV_setKV_self _ _ _
      · intro he
        have hm := mem_addSet_self j ts
        rw [he] at hm
        cases hm
      · intro x
        rw [mem_addSet_iff]
        constructor
        · rintro (hx | rfl)
          · exact Or.inr ⟨ts, rfl, hx⟩
          · exact Or.inl rfl
        · rintro (rfl | ⟨ts0, hts0, hx⟩)
          · exact Or.inr rfl
          · exact Or.inl ((Option.some.inj hts0) ▸ hx)
  have HTkeys : s1.tasks.map Prod.fst = s.tasks.map Prod.fst
      ∨ (lookupKV t s.tasks = none
        ∧ s1.tasks.map Prod.fst = s.tasks.map Prod.fst ++ [t]) := by
    rcases ht : lookupKV t s.tasks with _ | ts
    · exact Or.inr ⟨rfl, by
        rw [hs1, addIndexes_tasks_none j q job ht]
        exact map_fst_setKV_of_none ht _⟩
    · exact Or.inl (by
        rw [hs1, addIndexes_tasks_some j q job ht]
        exact map_fst_setKV_of_some ht _)
  have HQin : ∀ q2, q2 ∈ job1.queues ↔ (q2 = q ∨ q2 ∈ job.queues) := by
    intro q2
    rw [hjob1]
    exact mem_addSet_iff.trans or_comm
  have HTin : ∀ t2, t2 ∈ job1.tasks ↔ (t2 = t ∨ t2 ∈ job.tasks) := by
    intro t2
    rw [hjob1]
    exact mem_addSet_iff.trans or_comm
  refine ⟨?_, ?_, ?_, ?_, ?_, ?_, ?_, ?_, ?_, ?_, ?_⟩
  -- jobs_nodup
  · rcases HJkeys with ⟨hnone, hkeys⟩ | ⟨_, hkeys⟩
    · rw [hkeys]
      refine List.Nodup.append h.jobs_nodup (List.nodup_singleton j) ?_
      intro a ha hax
      rw [List.mem_singleton] at hax
      exact (lookupKV_eq_none.1 hnone) (hax ▸ ha)
    · rw [hkeys]
      exact h.jobs_nodup
  -- queues_nodup
  · rcases HQkeys with ⟨hnone, hkeys, _⟩ | ⟨_, hkeys, _⟩
    · rw [hkeys]
      refine List.Nodup.append h.queues_nodup (List.nodup_singleton q) ?_
      intro a ha hax
      rw [List.mem_singleton] at hax
      exact (lookupKV_eq_none.1 hnone) (hax ▸ ha)
    · rw [hkeys]
      exact h.queues_nodup
  -- tasks_nodup
  · rcases HTkeys with hkeys | ⟨hnone, hkeys⟩
    · rw [hkeys]
      exact h.tasks_nodup
    · rw [hkeys]
      refine List.Nodup.append h.tasks_nodup (List.nodup_singleton t) ?_
      intro a ha hax
      rw [List.mem_singleton] at hax
      exact (lookupKV_eq_none.1 hnone) (hax ▸ ha)
  -- qiter_keys
  · rcases HQkeys with ⟨hnone, hkeys, hiter⟩ | ⟨_, hkeys, hiter⟩
    · rw [hiter, hkeys]
      have hqi : lookupKV q s.queue_iter = none := by
        rw [lookupKV_eq_none, h.qiter_keys]
        exact lookupKV_eq_none.1 hnone
      rw [map_fst_setKV_of_none hqi, h.qiter_keys]
    · rw [hiter, hkeys, h.qiter_keys]
  -- live_nodup
  · intro q2 d2 hd2
    by_cases hq2 : q2 = q
    · subst hq2
      rcases HQmain with ⟨dq, hdq, _, hnd, _⟩
      have hde : d2 = dq := Option.some.inj (hd2.symm.trans hdq)
      rw [hde]
      exact hnd
    · rw [HQother q2 hq2] at hd2
      exact h.live_nodup q2 d2 hd2
  -- rec_nodup
  · intro j2 rec2 hrec2
    by_cases hj2 : j2 = j
    · subst hj2
      have hre : rec2 = job1 := Option.some.inj (hrec2.symm.trans HJself)
      rw [hre]
      constructor
      · show (addSet q job.queues).Nodup
        apply addSet_nodup
        rcases hjob with hjob | ⟨_, _, hqnil⟩
        · exact (h.rec_nodup j2 job hjob).1
        · rw [hqnil]
          exact List.nodup_nil
      · show (addSet t job.tasks).Nodup
        apply addSet_nodup
        rcases hjob with hjob | ⟨_, htnil, _⟩
        · exact (h.rec_nodup j2 job hjob).2
        · rw [htnil]
          exact List.nodup_nil
    · rw [HJother j2 hj2] at hrec2
      exact h.rec_nodup j2 rec2 hrec2
  -- queue_to_job
  · intro q2 d2 hd2 j2 hj2mem
    by_cases hq2 : q2 = q
    · subst hq2
      rcases HQmain with ⟨dq, hdq, _, _, hiff⟩
      have hde : d2 = dq := Option.some.inj (hd2.symm.trans hdq)
      rcases (hiff j2).1 (hde ▸ hj2mem) with rfl | ⟨d0, hd0, hk⟩
      · exact ⟨job1, HJself, (HQin q2).2 (Or.inl rfl)⟩
      · by_cases hj2 : j2 = j
        · subst hj2
          exact ⟨job1, HJself, (HQin q2).2 (Or.inl rfl)⟩
        · rcases h.queue_to_job q2 d0 hd0 j2 hk with ⟨rec0, hrec0, hqin⟩
          exact ⟨rec0, by rw [HJother j2 hj2]; exact hrec0, hqin⟩
    · rw [HQother q2 hq2] at hd2
      by_cases hj2 : j2 = j
      · subst hj2
        rcases h.queue_to_job q2 d2 hd2 j2 hj2mem with ⟨rec0, hrec0, hqin⟩
        rcases hjob with hjob | ⟨hnone, _, _⟩
        · have hre : rec0 = job := Option.some.inj (hrec0.symm.trans hjob)
          subst hre
          exact ⟨job1, HJself, (HQin q2).2 (Or.inr hqin)⟩
        · rw [hnone] at hrec0
          cases hrec0
      · rcases h.queue_to_job q2 d2 hd2 j2 hj2mem with ⟨rec0, hrec0, hqin⟩
        exact ⟨rec0, by rw [HJother j2 hj2]; exact hrec0, hqin⟩
  -- job_to_queue
  · intro j2 rec2 hrec2 q2 hq2mem
    by_cases hj2 : j2 = j
    · subst hj2
      have hre : rec2 = job1 := Option.some.inj (hrec2.symm.trans HJself)
      rw [hre] at hq2mem
      rcases (HQin q2).1 hq2mem with rfl | hq2in
      · rcases HQmain with ⟨dq, hdq, hjmem, _, _⟩
        exact ⟨dq, hdq, hjmem⟩
      · by_cases hq2q : q2 = q
        · subst hq2q
          rcases HQmain with ⟨dq, hdq, hjmem, _, _⟩
          exact ⟨dq, hdq, hjmem⟩
        · rcases hjob with hjob | ⟨_, _, hqnil⟩
          · rcases h.job_to_queue j2 job hjob q2 hq2in with ⟨d0, hd0, hjmem0⟩
            exact ⟨d0, by rw [HQother q2 hq2q]; exact hd0, hjmem0⟩
          · rw [hqnil] at hq2in
            cases hq2in
    · rw [HJother j2 hj2] at hrec2
      rcases h.job_to_queue j2 rec2 hrec2 q2 hq2mem with ⟨d0, hd0, hjmem0⟩
      by_cases hq2q : q2 = q
      · subst hq2q
        rcases HQmain with ⟨dq, hdq, _, _, hiff⟩
        exact ⟨dq, hdq, (hiff j2).2 (Or.inr ⟨d0, hd0, hjmem0⟩)⟩
      · exact ⟨d0, by rw [HQother q2 hq2q]; exact hd0, hjmem0⟩
  -- task_nonempty
  · intro t2 ts2 hts2
    by_cases ht2 : t2 = t
    · subst ht2
      rcases HTmain with ⟨tset, htset, _, hne, _⟩
      have hte : ts2 = tset := Option.some.inj (hts2.symm.trans htset)
      rw [hte]
      exact hne
    · rw [HTother t2 ht2] at hts2
      exact h.task_nonempty t2 ts2 hts2
  -- task_to_job
  · intro t2 ts2 hts2 j2 hj2mem
    by_cases ht2 : t2 = t
    · subst ht2
      rcases HTmain with ⟨tset, htset, _, _, hiff⟩
      have hte : ts2 = tset := Option.some.inj (hts2.symm.trans htset)
      rcases (hiff j2).1 (hte ▸ hj2mem) with rfl | ⟨ts0, hts0, hk⟩
      · exact ⟨job1, HJself, (HTin t2).2 (Or.inl rfl)⟩
      · by_cases hj2 : j2 = j
        · subst hj2
          exact ⟨job1, HJself, (HTin t2).2 (Or.inl rfl)⟩
        · rcases h.task_to_job t2 ts0 hts0 j2 hk with ⟨rec0, hrec0, htin⟩
          exact ⟨rec0, by rw [HJother j2 hj2]; exact hrec0, htin⟩
    · rw [HTother t2 ht2] at hts2
      by_cases hj2 : j2 = j
      · subst hj2
        rcases h.task_to_job t2 ts2 hts2 j2 hj2mem with ⟨rec0, hrec0, htin⟩
        rcases hjob with hjob | ⟨hnone, _, _⟩
        · have hre : rec0 = job := Option.some.inj (hrec0.symm.trans hjob)
          subst hre
          exact ⟨job1, HJself, (HTin t2).2 (Or.inr htin)⟩
        · rw [hnone] at hrec0
          cases hrec0
      · rcases h.task_to_job t2 ts2 hts2 j2 hj2mem with ⟨rec0, hrec0, htin⟩
        exact ⟨rec0, by rw [HJother j2 hj2]; exact hrec0, htin⟩
  -- job_to_task
  · intro j2 rec2 hrec2 t2 ht2mem
    by_cases hj2 : j2 = j
    · subst hj2
      have hre : rec2 = job1 := Option.some.inj (hrec2.symm.trans HJself)
      rw [hre] at ht2mem
      rcases (HTin t2).1 ht2mem with rfl | ht2in
      · rcases HTmain with ⟨tset, htset, hjmem, _, _⟩
        exact ⟨tset, htset, hjmem⟩
      · by_cases ht2t : t2 = t
        · subst ht2t
          rcases HTmain with ⟨tset, htset, hjmem, _, _⟩
          exact ⟨tset, htset, hjmem⟩
        · rcases hjob with hjob | ⟨_, htnil, _⟩
          · rcases h.job_to_task j2 job hjob t2 ht2in with ⟨ts0, hts0, hjmem0⟩
            exact ⟨ts0, by rw [HTother t2 ht2t]; exact hts0, hjmem0⟩
          · rw [htnil] at ht2in
            cases ht2in
    · rw [HJother j2 hj2] at hrec2
      rcases h.job_to_task j2 rec2 hrec2 t2 ht2mem with ⟨ts0, hts0, hjmem0⟩
      by_cases ht2t : t2 = t
      · subst ht2t
        rcases HTmain with ⟨tset, htset, _, _, hiff⟩
        exact ⟨tset, htset, (hiff j2).2 (Or.inr ⟨ts0, hts0, hjmem0⟩)⟩
      · exact ⟨ts0, by rw [HTother t2 ht2t]; exact hts0, hjmem0⟩

theorem InvS_add (j t : String) (q : Int) (dat : String) {s : Store} (h : InvS s) :
    InvS (Jobs.add j t q dat s).2 := by
  rcases hj : lookupKV j s.jobs with _ | job
  · rw [show (Jobs.add j t q dat s).2 = (Jobs.addIndexes j t q ⟨dat, [], []⟩ s).2 from by
      simp [Jobs.add, hj]]
    exact InvS_addIndexes h t q (Or.inr ⟨hj, rfl, rfl⟩)
  · by_cases hd : dat = job.data
    · rw [show (Jobs.add j t q dat s).2 = (Jobs.addIndexes j t q job s).2 from by
        simp [Jobs.add, hj, hd]]
      exact InvS_addIndexes h t q (Or.inl hj)
    · rw [show (Jobs.add j t q dat s).2 = s from by simp [Jobs.add, hj, hd]]
      exact h

/-! ## Behaviour of remove -/

theorem popLive_spec {k : String} {l : List Node} (h : k ∈ l.map Node.key) :
    ∃ v l2 dd, popLive k l = some (v, l2, dd) ∧
      l2.map Node.key = (l.map Node.key).erase k ∧
      l2.length + 1 = l.length ∧ (∀ n, n ∈ l2 → n ∈ l) := by
  induction l with
  | nil => simp at h
  | cons n rest ih =>
    by_cases hn : n.key = k
    · refine ⟨n.val, rest, (n.nid, n.key, rest.head?.map Node.nid), ?_, ?_, rfl, ?_⟩
      · simp [popLive, hn]
      · rw [List.map_cons, hn, List.erase_cons_head]
      · intro m hm
        exact List.mem_cons_of_mem _ hm
    · have hr : k ∈ rest.map Node.key := by
        rcases List.mem_map.1 h with ⟨m, hm, hkey⟩
        rcases List.mem_cons.1 hm with hm | hm
        · exact absurd (hm ▸ hkey) hn
        · exact List.mem_map.2 ⟨m, hm, hkey⟩
      rcases ih hr with ⟨v, l2, dd, hpop, hkeys, hlen, hsub⟩
      refine ⟨v, n :: l2, dd, ?_, ?_, by simpa using hlen, ?_⟩
      · simp [popLive, hn, hpop]
      · rw [List.map_cons, List.map_cons, hkeys,
          List.erase_cons_tail (by simpa using hn)]
      · intro m hm
        rcases List.mem_cons.1 hm with hm | hm
        · exact hm ▸ List.mem_cons_self n rest
        · exact List.mem_cons_of_mem _ (hsub m hm)

theorem ODict.pop_spec {d : ODict} {k : String} (h : k ∈ d.keys) :
    ∃ v d2, d.pop k = .ok (v, d2) ∧
      d2.keys = d.keys.erase k ∧
      d2.live.length + 1 = d.live.length ∧ (∀ n, n ∈ d2.live → n ∈ d.live) := by
  rcases popLive_spec h with ⟨v, l2, dd, hpop, hkeys, hlen, hsub⟩
  refine ⟨v, ⟨l2, dd :: d.dead, d.nextNid⟩, ?_, hkeys, hlen, hsub⟩
  unfold ODict.pop
  rw [hpop]

theorem removeQueuesLoop_spec (j : String) :
    ∀ (qids : List Int) (qs : List (Int × ODict)),
    qids.Nodup →
    (∀ q, q ∈ qids → ∃ d, lookupKV q qs = some d ∧ j ∈ d.keys) →
    ∃ qs2, Jobs.removeQueuesLoop j qids qs = (.ok (), qs2) ∧
      qs2.map Prod.fst = qs.map Prod.fst ∧
      (∀ q, q ∉ qids → lookupKV q qs2 = lookupKV q qs) ∧
      (∀ q, q ∈ qids → ∃ d d2, lookupKV q qs = some d ∧ lookupKV q qs2 = some d2 ∧
        d2.keys = d.keys.erase j ∧ d2.live.length + 1 = d.live.length ∧
        (∀ n, n ∈ d2.live → n ∈ d.live)) := by
  intro qids
  induction qids with
  | nil =>
    intro qs _ _
    exact ⟨qs, rfl, rfl, fun _ _ => rfl, fun q hq => absurd hq (List.not_mem_nil q)⟩
  | cons q rest ih =>
    intro qs hnd hall
    rcases hall q (List.mem_cons_self q rest) with ⟨d, hd, hj⟩
    rcases ODict.pop_spec hj with ⟨v, d2, hpop, hkeys, hlen, hsub⟩
    have hqrest : q ∉ rest := (List.nodup_cons.1 hnd).1
    have hndr : rest.Nodup := (List.nodup_cons.1 hnd).2
    have hall2 : ∀ q2, q2 ∈ rest → ∃ dd, lookupKV q2 (setKV q d2 qs) = some dd ∧ j ∈ dd.keys := by
      intro q2 hq2
      have hne : q2 ≠ q := fun hh => hqrest (hh ▸ hq2)
      rw [lookupKV_setKV_ne hne]
      exact hall q2 (List.mem_cons_of_mem _ hq2)
    rcases ih (setKV q d2 qs) hndr hall2 with ⟨qs2, hloop, hfst, hout, hin⟩
    refine ⟨qs2, ?_, ?_, ?_, ?_⟩
    · simp only [Jobs.removeQueuesLoop, hd, hpop]
      exact hloop
    · rw [hfst, map_fst_setKV_of_some hd]
    · intro q2 hq2
      have hne : q2 ≠ q := fun hh => hq2 (hh ▸ List.mem_cons_self q rest)
      have hnr : q2 ∉ rest := fun hh => hq2 (List.mem_cons_of_mem _ hh)
      rw [hout q2 hnr, lookupKV_setKV_ne hne]
    · intro q2 hq2
      rcases List.mem_cons.1 hq2 with hq2 | hq2
      · subst hq2
        refine ⟨d, d2, hd, ?_, hkeys, hlen, hsub⟩
        rw [hout q2 hqrest, lookupKV_setKV_self]
      · rcases hin q2 hq2 with ⟨dd, dd2, h1, h2, h3, h4, h5⟩
        have hne : q2 ≠ q := fun hh => hqrest (hh ▸ hq2)
        rw [lookupKV_setKV_ne hne] at h1
        exact ⟨dd, dd2, h1, h2, h3, h4, h5⟩

theorem removeTasksLoop_spec (j : String) :
    ∀ (tids : List String) (ts : List (String × List String)),
    tids.Nodup →
    (∀ t, t ∈ tids → ∃ tset, lookupKV t ts = some tset ∧ j ∈ tset) →
    ∃ ts2, Jobs.removeTasksLoop j tids ts = (.ok (), ts2) ∧
      (ts2.map Prod.fst).Sublist (ts.map Prod.fst) ∧
      (∀ t, t ∉ tids → lookupKV t ts2 = lookupKV t ts) ∧
      (∀ t, t ∈ tids → ∃ tset, lookupKV t ts = some tset ∧ j ∈ tset ∧
        lookupKV t ts2 = (if tset.filter (fun x => x ≠ j) = [] then none
          else some (tset.filter (fun x => x ≠ j)))) := by
  intro tids
  induction tids with
  | nil =>
    intro ts _ _
    exact ⟨ts, rfl, List.Sublist.refl _, fun _ _ => rfl,
      fun t ht => absurd ht (List.not_mem_nil t)⟩
  | cons t rest ih =>
    intro ts hnd hall
    rcases hall t (List.mem_cons_self t rest) with ⟨tset, hts, hj⟩
    have htrest : t ∉ rest := (List.nodup_cons.1 hnd).1
    have hndr : rest.Nodup := (List.nodup_cons.1 hnd).2
    by_cases hemp : tset.filter (fun x => x ≠ j) = []
    · -- the task set becomes empty: the task is deleted
      have hall2 : ∀ t2, t2 ∈ rest →
          ∃ tset2, lookupKV t2 (eraseKV t ts) = some tset2 ∧ j ∈ tset2 := by
        intro t2 ht2
        have hne : t2 ≠ t := fun hh => htrest (hh ▸ ht2)
        rw [lookupKV_eraseKV_ne hne]
        exact hall t2 (List.mem_cons_of_mem _ ht2)
      rcases ih (eraseKV t ts) hndr hall2 with ⟨ts2, hloop, hsub, hout, hin⟩
      refine ⟨ts2, ?_, ?_, ?_, ?_⟩
      · have hempB : ((tset.filter (fun x => x ≠ j)).isEmpty) = true := by
          rw [List.isEmpty_iff]
          exact hemp
        simp only [Jobs.removeTasksLoop, hts, if_pos hj, hempB, if_true]
        exact hloop
      · refine hsub.trans ?_
        rw [map_fst_eraseKV]
        exact List.filter_sublist _
      · intro t2 ht2
        have hne : t2 ≠ t := fun hh => ht2 (hh ▸ List.mem_cons_self t rest)
        have hnr : t2 ∉ rest := fun hh => ht2 (List.mem_cons_of_mem _ hh)
        rw [hout t2 hnr, lookupKV_eraseKV_ne hne]
      · intro t2 ht2
        rcases List.mem_cons.1 ht2 with ht2 | ht2
        · subst ht2
          refine ⟨tset, hts, hj, ?_⟩
          rw [hout t2 htrest, if_pos hemp, lookupKV_eraseKV_self]
        · rcases hin t2 ht2 with ⟨ss, h1, h2, h3⟩
          have hne : t2 ≠ t := fun hh => htrest (hh ▸ ht2)
          rw [lookupKV_eraseKV_ne hne] at h1
          exact ⟨ss, h1, h2, h3⟩
    · -- the task keeps a non-empty set with j removed
      have hall2 : ∀ t2, t2 ∈ rest →
          ∃ tset2, lookupKV t2 (setKV t (tset.filter (fun x => x ≠ j)) ts) = some tset2
            ∧ j ∈ tset2 := by
        intro t2 ht2
        have hne : t2 ≠ t := fun hh => htrest (hh ▸ ht2)
        rw [lookupKV_setKV_ne hne]
        exact hall t2 (List.mem_cons_of_mem _ ht2)
      rcases ih (setKV t (tset.filter (fun x => x ≠ j)) ts) hndr hall2 with
        ⟨ts2, hloop, hsub, hout, hin⟩
      refine ⟨ts2, ?_, ?_, ?_, ?_⟩
      · have hempB : ((tset.filter (fun x => x ≠ j)).isEmpty) = false := by
          rcases he : (tset.filter (fun x => x ≠ j)).isEmpty with _ | _
          · rfl
          · exact absurd (List.isEmpty_iff.1 he) hemp
        simp only [Jobs.removeTasksLoop, hts, if_pos hj, hempB, if_false]
        exact hloop
      · refine hsub.trans ?_
        rw [map_fst_setKV_of_some hts]
      · intro t2 ht2
        have hne : t2 ≠ t := fun hh => ht2 (hh ▸ List.mem_cons_self t rest)
        have hnr : t2 ∉ rest := fun hh => ht2 (List.mem_cons_of_mem _ hh)
        rw [hout t2 hnr, lookupKV_setKV_ne hne]
      · intro t2 ht2
        rcases List.mem_cons.1 ht2 with ht2 | ht2
        · subst ht2
          refine ⟨tset, hts, hj, ?_⟩
          rw [hout t2 htrest, if_neg hemp, lookupKV_setKV_self]
        · rcases hin t2 ht2 with ⟨ss, h1, h2, h3⟩
          have hne : t2 ≠ t := fun hh => htrest (hh ▸ ht2)
          rw [lookupKV_setKV_ne hne] at h1
          exact ⟨ss, h1, h2, h3⟩

/-- Full characterisation of a successful `remove` from an invariant
state: the job is erased; for every queue it belonged to the entry is
deleted (queues, and the whole cursor index, are retained); every task it
belonged to loses the job, the task being deleted exactly when its set
becomes empty; everything else is untouched. -/
theorem remove_spec {s : Store} (h : InvS s) {j : String} {rec : JobRec}
    (hrec : lookupKV j s.jobs = some rec) :
    ∃ s2, Jobs.remove j s = (.ok (), s2) ∧
      s2.queue_iter = s.queue_iter ∧
      s2.jobs = eraseKV j s.jobs ∧
      s2.queues.map Prod.fst = s.queues.map Prod.fst ∧
      (∀ q, q ∉ rec.queues → lookupKV q s2.queues = lookupKV q s.queues) ∧
      (∀ q, q ∈ rec.queues → ∃ d d2, lookupKV q s.queues = some d ∧
        lookupKV q s2.queues = some d2 ∧ d2.keys = d.keys.erase j ∧
        d2.live.length + 1 = d.live.length ∧ (∀ n, n ∈ d2.live → n ∈ d.live)) ∧
      (s2.tasks.map Prod.fst).Sublist (s.tasks.map Prod.fst) ∧
      (∀ t, t ∉ rec.tasks → lookupKV t s2.tasks = lookupKV t s.tasks) ∧
      (∀ t, t ∈ rec.tasks → ∃ tset, lookupKV t s.tasks = some tset ∧ j ∈ tset ∧
        lookupKV t s2.tasks = (if tset.filter (fun x => x ≠ j) = [] then none
          else some (tset.filter (fun x => x ≠ j)))) := by
  have hq_all : ∀ q, q ∈ rec.queues → ∃ d, lookupKV q s.queues = some d ∧ j ∈ d.keys :=
    fun q hq => h.job_to_queue j rec hrec q hq
  have ht_all : ∀ t, t ∈ rec.tasks → ∃ tset, lookupKV t s.tasks = some tset ∧ j ∈ tset :=
    fun t ht => h.job_to_task j rec hrec t ht
  rcases removeQueuesLoop_spec j rec.queues s.queues (h.rec_nodup j rec hrec).1 hq_all with
    ⟨qs2, hql, hqfst, hqout, hqin⟩
  rcases removeTasksLoop_spec j rec.tasks s.tasks (h.rec_nodup j rec hrec).2 ht_all with
    ⟨ts2, htl, htsub, htout, htin⟩
  refine ⟨{ s with jobs := eraseKV j s.jobs, queues := qs2, tasks := ts2 }, ?_,
    rfl, rfl, hqfst, hqout, hqin, htsub, htout, htin⟩
  simp only [Jobs.remove, hrec, hql, htl]

theorem InvS_remove (j : String) {s : Store} (h : InvS s) : InvS (Jobs.remove j s).2 := by
  rcases hj : lookupKV j s.jobs with _ | rec
  · rw [show (Jobs.remove j s).2 = s from by simp [Jobs.remove, hj]]
    exact h
  · rcases remove_spec h hj with ⟨s2, hrem, hiter, hjobs, hqfst, hqout, hqin, htsub, htout, htin⟩
    rw [show (Jobs.remove j s).2 = s2 from by rw [hrem]]
    have HJnone : lookupKV j s2.jobs = none := by
      rw [hjobs]
      exact lookupKV_eraseKV_self j s.jobs
    have HJother : ∀ j2, j2 ≠ j → lookupKV j2 s2.jobs = lookupKV j2 s.jobs := by
      intro j2 hne
      rw [hjobs]
      exact lookupKV_eraseKV_ne hne s.jobs
    have HJsome : ∀ j2 rec2, lookupKV j2 s2.jobs = some rec2 →
        j2 ≠ j ∧ lookupKV j2 s.jobs = some rec2 := by
      intro j2 rec2 h2
      by_cases hne : j2 = j
      · subst hne
        rw [HJnone] at h2
        cases h2
      · exact ⟨hne, (HJother j2 hne) ▸ h2⟩
    -- every key of every queue of s2 comes from the same queue of s and is not j
    have K1 : ∀ q2 d2, lookupKV q2 s2.queues = some d2 → ∀ k, k ∈ d2.keys →
        ∃ d, lookupKV q2 s.queues = some d ∧ k ∈ d.keys ∧ k ≠ j := by
      intro q2 d2 h2 k hk
      by_cases hqm : q2 ∈ rec.queues
      · rcases hqin q2 hqm with ⟨d, d2x, hd, hd2x, hkeys, _, _⟩
        have hde : d2 = d2x := Option.some.inj (h2.symm.trans hd2x)
        rw [hde, hkeys] at hk
        have hnd := h.live_nodup q2 d hd
        rw [List.Nodup.mem_erase_iff hnd] at hk
        exact ⟨d, hd, hk.2, hk.1⟩
      · rw [hqout q2 hqm] at h2
        refine ⟨d2, h2, hk, ?_⟩
        intro hkj
        subst hkj
        rcases h.queue_to_job q2 d2 h2 k hk with ⟨rec0, hrec0, hqin0⟩
        have hre : rec0 = rec := Option.some.inj (hrec0.symm.trans hj)
        subst hre
        exact hqm hqin0
    have T1 : ∀ t2 ts2, lookupKV t2 s2.tasks = some ts2 → ∀ k, k ∈ ts2 →
        ∃ tset, lookupKV t2 s.tasks = some tset ∧ k ∈ tset ∧ k ≠ j := by
      intro t2 ts2 h2 k hk
      by_cases htm : t2 ∈ rec.tasks
      · rcases htin t2 htm with ⟨tset, hts, hjm, hif⟩
        by_cases hemp : tset.filter (fun x => x ≠ j) = []
        · rw [hif, if_pos hemp] at h2
          cases h2
        · rw [hif, if_neg hemp] at h2
          have hte : ts2 = tset.filter (fun x => x ≠ j) :=
            Option.some.inj (h2.symm.trans rfl)
          rw [hte] at hk
          have := List.mem_filter.1 hk
          exact ⟨tset, hts, this.1, by simpa using this.2⟩
      · rw [htout t2 htm] at h2
        refine ⟨ts2, h2, hk, ?_⟩
        intro hkj
        subst hkj
        rcases h.task_to_job t2 ts2 h2 k hk with ⟨rec0, hrec0, htin0⟩
        have hre : rec0 = rec := Option.some.inj (hrec0.symm.trans hj)
        subst hre
        exact htm htin0
    refine ⟨?_, ?_, ?_, ?_, ?_, ?_, ?_, ?_, ?_, ?_, ?_⟩
    -- jobs_nodup
    · rw [hjobs, map_fst_eraseKV]
      exact List.Nodup.filter _ h.jobs_nodup
    -- queues_nodup
    · rw [hqfst]
      exact h.queues_nodup
    -- tasks_nodup
    · exact List.Nodup.sublist htsub h.tasks_nodup
    -- qiter_keys
    · rw [hiter, hqfst]
      exact h.qiter_keys
    -- live_nodup
    · intro q2 d2 h2
      by_cases hqm : q2 ∈ rec.queues
      · rcases hqin q2 hqm with ⟨d, d2x, hd, hd2x, hkeys, _, _⟩
        have hde : d2 = d2x := Option.some.inj (h2.symm.trans hd2x)
        rw [hde, hkeys]
        exact List.Nodup.sublist (List.erase_sublist j d.keys) (h.live_nodup q2 d hd)
      · rw [hqout q2 hqm] at h2
        exact h.live_nodup q2 d2 h2
    -- rec_nodup
    · intro j2 rec2 h2
      rcases HJsome j2 rec2 h2 with ⟨_, h2s⟩
      exact h.rec_nodup j2 rec2 h2s
    -- queue_to_job
    · intro q2 d2 h2 k hk
      rcases K1 q2 d2 h2 k hk with ⟨d, hd, hkd, hkj⟩
      rcases h.queue_to_job q2 d hd k hkd with ⟨rec0, hrec0, hqin0⟩
      exact ⟨rec0, by rw [HJother k hkj]; exact hrec0, hqin0⟩
    -- job_to_queue
    · intro j2 rec2 h2 q2 hq2
      rcases HJsome j2 rec2 h2 with ⟨hne, h2s⟩
      rcases h.job_to_queue j2 rec2 h2s q2 hq2 with ⟨d, hd, hjmem⟩
      by_cases hqm : q2 ∈ rec.queues
      · rcases hqin q2 hqm with ⟨dx, d2x, hdx, hd2x, hkeys, _, _⟩
        have hde : dx = d := Option.some.inj (hdx.symm.trans hd)
        subst hde
        refine ⟨d2x, hd2x, ?_⟩
        rw [hkeys, List.Nodup.mem_erase_iff (h.live_nodup q2 dx hdx)]
        exact ⟨hne, hjmem⟩
      · exact ⟨d, by rw [hqout q2 hqm]; exact hd, hjmem⟩
    -- task_nonempty
    · intro t2 ts2 h2
      by_cases htm : t2 ∈ rec.tasks
      · rcases htin t2 htm with ⟨tset, hts, hjm, hif⟩
        by_cases hemp : tset.filter (fun x => x ≠ j) = []
        · rw [hif, if_pos hemp] at h2
          cases h2
        · rw [hif, if_neg hemp] at h2
          have hte : ts2 = tset.filter (fun x => x ≠ j) :=
            Option.some.inj (h2.symm.trans rfl)
          rw [hte]
          exact hemp
      · rw [htout t2 htm] at h2
        exact h.task_nonempty t2 ts2 h2
    -- task_to_job
    · intro t2 ts2 h2 k hk
      rcases T1 t2 ts2 h2 k hk with ⟨tset, hts, hkt, hkj⟩
      rcases h.task_to_job t2 tset hts k hkt with ⟨rec0, hrec0, htin0⟩
      exact ⟨rec0, by rw [HJother k hkj]; exact hrec0, htin0⟩
    -- job_to_task
    · intro j2 rec2 h2 t2 ht2
      rcases HJsome j2 rec2 h2 with ⟨hne, h2s⟩
      rcases h.job_to_task j2 rec2 h2s t2 ht2 with ⟨tset, hts, hjmem⟩
      by_cases htm : t2 ∈ rec.tasks
      · rcases htin t2 htm with ⟨tsetx, htsx, hjmx, hif⟩
        have hte : tsetx = tset := Option.some.inj (htsx.symm.trans hts)
        subst hte
        have hmem : j2 ∈ tsetx.filter (fun x => x ≠ j) :=
          List.mem_filter.2 ⟨hjmem, by simpa using hne⟩
        have hemp : tsetx.filter (fun x => x ≠ j) ≠ [] := List.ne_nil_of_mem hmem
        refine ⟨tsetx.filter (fun x => x ≠ j), ?_, hmem⟩
        rw [hif, if_neg hemp]
      · exact ⟨tset, by rw [htout t2 htm]; exact hts, hjmem⟩

/-! ## Behaviour of pull: dictionary and cursor tracking -/

theorem ODict.lookup_set_cases {d : ODict} {k k' : String} {v v' : Int}
    (h2 : (d.set k v).lookup k' = some v') :
    (k' ≠ k ∧ d.lookup k' = some v') ∨ (k' = k ∧ v' = v) := by
  by_cases hk : k' = k
  · subst hk
    rw [ODict.lookup_set_self] at h2
    exact Or.inr ⟨rfl, (Option.some.inj h2).symm⟩
  · rw [ODict.lookup_set_ne hk] at h2
    exact Or.inl ⟨hk, h2⟩

theorem ODict.lookup_set_stable {d : ODict} {k' : String} {w : Int} (k : String)
    (h : d.lookup k' = some w) : (d.set k w).lookup k' = some w := by
  by_cases hk : k' = k
  · subst hk
    rw [ODict.lookup_set_self]
  · rw [ODict.lookup_set_ne hk]
    exact h

theorem ODict.nids_set_of_some {d : ODict} {k : String} {w : Int}
    (h : d.lookup k = some w) (v : Int) :
    (d.set k v).live.map Node.nid = d.live.map Node.nid := by
  rw [ODict.set_of_some h]
  simp only [List.map_map]
  apply List.map_congr_left
  intro n _
  by_cases hn : n.key = k <;> simp [hn]

theorem iterStep_yield_lookup {d : ODict} {pos : Option Nat} {k : String} {v : Int} {p : Nat}
    (h : iterStep d pos = .yieldS k v p) : d.lookup k = some v := by
  unfold iterStep at h
  rcases hc : currOf d pos with _ | ik
  · simp only [hc] at h
    cases h
  · simp only [hc] at h
    rcases hl : d.lookup ik.2 with _ | w
    · simp only [hl] at h
      cases h
    · simp only [hl] at h
      injection h with h1 h2 h3
      rw [← h1, hl, h2]

theorem qiNext_ok_spec {d : ODict} {qi : QueueIterator}
    {r : (String × Int) × QueueIterator} {qi3 : QueueIterator}
    (h : qiNext d qi = (.ok r, qi3)) :
    d.lookup r.1.1 = some r.1.2 ∧ qi3 = r.2 ∧ r.2.count = qi.count + 1 ∧
    (∃ p, r.2.pos = some p ∧
      (iterStep d qi.pos = .yieldS r.1.1 r.1.2 p ∨
       (iterStep d qi.pos = .stopS ∧ iterStep d none = .yieldS r.1.1 r.1.2 p))) := by
  unfold qiNext at h
  by_cases he : d.live.isEmpty
  · rw [if_pos he] at h
    injection h with hA hB
    cases hA
  · rw [if_neg he] at h
    rcases h1 : iterStep d qi.pos with _ | ⟨k, v, p⟩ | _
    · simp only [h1] at h
      rcases h2 : iterStep d none with _ | ⟨k, v, p⟩ | _
      · simp only [h2] at h
        injection h with hA hB
        cases hA
      · simp only [h2] at h
        injection h with hA hB
        injection hA with hA
        subst hA
        exact ⟨iterStep_yield_lookup h2, hB.symm, rfl, p, rfl, Or.inr ⟨rfl, rfl⟩⟩
      · simp only [h2] at h
        injection h with hA hB
        cases hA
    · simp only [h1] at h
      injection h with hA hB
      injection hA with hA
      subst hA
      exact ⟨iterStep_yield_lookup h1, hB.symm, rfl, p, rfl, Or.inl rfl⟩
    · simp only [h1] at h
      injection h with hA hB
      cases hA

theorem pullQueue_dict (jobsStore : List (String × JobRec)) (count : Nat) (now : Int) :
    ∀ (fuel : Nat) (d : ODict) (qi : QueueIterator) (acc : List (String × String)),
    ((Jobs.pullQueue jobsStore count now fuel d qi acc).dict.keys = d.keys)
    ∧ ((Jobs.pullQueue jobsStore count now fuel d qi acc).dict.live.map Node.nid
        = d.live.map Node.nid)
    ∧ ((Jobs.pullQueue jobsStore count now fuel d qi acc).dict.dead = d.dead)
    ∧ ((Jobs.pullQueue jobsStore count now fuel d qi acc).dict.nextNid = d.nextNid)
    ∧ (∀ k v, (Jobs.pullQueue jobsStore count now fuel d qi acc).dict.lookup k = some v →
        d.lookup k = some v ∨ v = now)
    ∧ (∀ k, d.lookup k = some now →
        (Jobs.pullQueue jobsStore count now fuel d qi acc).dict.lookup k = some now) := by
  intro fuel
  induction fuel with
  | zero =>
    intro d qi acc
    exact ⟨rfl, rfl, rfl, rfl, fun k v h => Or.inl h, fun k h => h⟩
  | succ fuel ih =>
    intro d qi acc
    rcases hn : qiNext d qi with ⟨res, qi4⟩
    rcases res with e | r
    · have hred : Jobs.pullQueue jobsStore count now (fuel + 1) d qi acc
          = .errR e d qi4 := by
        simp only [Jobs.pullQueue, hn]
      rw [hred]
      exact ⟨rfl, rfl, rfl, rfl, fun k v h => Or.inl h, fun k h => h⟩
    · rcases qiNext_ok_spec hn with ⟨hlook, _, _, _⟩
      have hset1 : (d.set r.1.1 now).keys = d.keys := ODict.keys_set_of_some hlook now
      have hset2 : (d.set r.1.1 now).live.map Node.nid = d.live.map Node.nid :=
        ODict.nids_set_of_some hlook now
      have hset3 : (d.set r.1.1 now).dead = d.dead := ODict.dead_set d r.1.1 now
      have hset4 : (d.set r.1.1 now).nextNid = d.nextNid :=
        ODict.nextNid_set_of_some hlook now
      by_cases hav : now - r.1.2 > JOB_LEASE_TIME
      · rcases hjb : lookupKV r.1.1 jobsStore with _ | rec
        · have hred : Jobs.pullQueue jobsStore count now (fuel + 1) d qi acc
              = .errR .keyError (d.set r.1.1 now) r.2 := by
            simp only [Jobs.pullQueue, hn, if_pos hav, hjb]
          rw [hred]
          refine ⟨hset1, hset2, hset3, hset4, ?_, ?_⟩
          · intro k v h
            rcases ODict.lookup_set_cases h with ⟨_, h⟩ | ⟨_, h⟩
            · exact Or.inl h
            · exact Or.inr h
          · intro k h
            exact ODict.lookup_set_stable r.1.1 h
        · by_cases hc : count ≤ (acc ++ [(r.1.1, rec.data)]).length
          · have hred : Jobs.pullQueue jobsStore count now (fuel + 1) d qi acc
                = .ret (acc ++ [(r.1.1, rec.data)]) (d.set r.1.1 now) r.2 := by
              simp only [Jobs.pullQueue, hn, if_pos hav, hjb, if_pos hc]
            rw [hred]
            refine ⟨hset1, hset2, hset3, hset4, ?_, ?_⟩
            · intro k v h
              rcases ODict.lookup_set_cases h with ⟨_, h⟩ | ⟨_, h⟩
              · exact Or.inl h
              · exact Or.inr h
            · intro k h
              exact ODict.lookup_set_stable r.1.1 h
          · have hred : Jobs.pullQueue jobsStore count now (fuel + 1) d qi acc
                = Jobs.pullQueue jobsStore count now fuel (d.set r.1.1 now) r.2
                    (acc ++ [(r.1.1, rec.data)]) := by
              simp only [Jobs.pullQueue, hn, if_pos hav, hjb, if_neg hc]
            rw [hred]
            rcases ih (d.set r.1.1 now) r.2 (acc ++ [(r.1.1, rec.data)]) with
              ⟨ih1, ih2, ih3, ih4, ih5, ih6⟩
            refine ⟨ih1.trans hset1, ih2.trans hset2, ih3.trans hset3, ih4.trans hset4,
              ?_, ?_⟩
            · intro k v h
              rcases ih5 k v h with h | h
              · rcases ODict.lookup_set_cases h with ⟨_, h⟩ | ⟨_, h⟩
                · exact Or.inl h
                · exact Or.inr h
              · exact Or.inr h
            · intro k h
              exact ih6 k (ODict.lookup_set_stable r.1.1 h)
      · rcases hr : qiRevert d r.2 with ⟨rr, qi2⟩
        rcases rr with e | u
        · have hred : Jobs.pullQueue jobsStore count now (fuel + 1) d qi acc
              = .errR e d qi2 := by
            simp only [Jobs.pullQueue, hn, if_neg hav, hr]
          rw [hred]
          exact ⟨rfl, rfl, rfl, rfl, fun k v h => Or.inl h, fun k h => h⟩
        · have hred : Jobs.pullQueue jobsStore count now (fuel + 1) d qi acc
              = .cont acc d qi2 := by
            simp only [Jobs.pullQueue, hn, if_neg hav, hr]
          rw [hred]
          exact ⟨rfl, rfl, rfl, rfl, fun k v h => Or.inl h, fun k h => h⟩

theorem pullQueue_append (jobsStore : List (String × JobRec)) (count : Nat) (now : Int) :
    ∀ (fuel : Nat) (d : ODict) (qi : QueueIterator) (acc js : List (String × String))
      (d2 : ODict) (qi2 : QueueIterator),
    (Jobs.pullQueue jobsStore count now fuel d qi acc = .ret js d2 qi2
      ∨ Jobs.pullQueue jobsStore count now fuel d qi acc = .cont js d2 qi2) →
    ∀ x, x ∈ js → x ∈ acc ∨ (x.1 ∈ d.keys ∧ d2.lookup x.1 = some now) := by
  intro fuel
  induction fuel with
  | zero =>
    intro d qi acc js d2 qi2 hres x hx
    rcases hres with hres | hres <;> cases hres
  | succ fuel ih =>
    intro d qi acc js d2 qi2 hres x hx
    rcases hn : qiNext d qi with ⟨res, qi4⟩
    rcases res with e | r
    · have hred : Jobs.pullQueue jobsStore count now (fuel + 1) d qi acc
          = .errR e d qi4 := by
        simp only [Jobs.pullQueue, hn]
      rcases hres with hres | hres <;> rw [hred] at hres <;> cases hres
    · rcases qiNext_ok_spec hn with ⟨hlook, _, _, _⟩
      by_cases hav : now - r.1.2 > JOB_LEASE_TIME
      · rcases hjb : lookupKV r.1.1 jobsStore with _ | rec
        · have hred : Jobs.pullQueue jobsStore count now (fuel + 1) d qi acc
              = .errR .keyError (d.set r.1.1 now) r.2 := by
            simp only [Jobs.pullQueue, hn, if_pos hav, hjb]
          rcases hres with hres | hres <;> rw [hred] at hres <;> cases hres
        · by_cases hc : count ≤ (acc ++ [(r.1.1, rec.data)]).length
          · have hred : Jobs.pullQueue jobsStore count now (fuel + 1) d qi acc
                = .ret (acc ++ [(r.1.1, rec.data)]) (d.set r.1.1 now) r.2 := by
              simp only [Jobs.pullQueue, hn, if_pos hav, hjb, if_pos hc]
            rcases hres with hres | hres <;> rw [hred] at hres <;> cases hres
            rcases List.mem_append.1 hx with hx | hx
            · exact Or.inl hx
            · rw [List.mem_singleton] at hx
              subst hx
              exact Or.inr ⟨ODict.mem_keys_of_lookup hlook, ODict.lookup_set_self d _ now⟩
          · have hred : Jobs.pullQueue jobsStore count now (fuel + 1) d qi acc
                = Jobs.pullQueue jobsStore count now fuel (d.set r.1.1 now) r.2
                    (acc ++ [(r.1.1, rec.data)]) := by
              simp only [Jobs.pullQueue, hn, if_pos hav, hjb, if_neg hc]
            rw [hred] at hres
            rcases ih (d.set r.1.1 now) r.2 (acc ++ [(r.1.1, rec.data)]) js d2 qi2 hres x hx
              with hx2 | ⟨hk, hv⟩
            · rcases List.mem_append.1 hx2 with hx2 | hx2
              · exact Or.inl hx2
              · rw [List.mem_singleton] at hx2
                subst hx2
                refine Or.inr ⟨ODict.mem_keys_of_lookup hlook, ?_⟩
                -- the value written stays `now` through the rest of the loop
                have hstab := (pullQueue_dict jobsStore count now fuel (d.set r.1.1 now) r.2
                  (acc ++ [(r.1.1, rec.data)])).2.2.2.2.2
                have hd2 : (Jobs.pullQueue jobsStore count now fuel (d.set r.1.1 now) r.2
                    (acc ++ [(r.1.1, rec.data)])).dict = d2 := by
                  rcases hres with hres | hres <;> rw [hres] <;> rfl
                rw [← hd2]
                exact hstab _ (ODict.lookup_set_self d _ now)
            · refine Or.inr ⟨?_, hv⟩
              rw [← ODict.keys_set_of_some hlook now]
              exact hk
      · rcases hr : qiRevert d r.2 with ⟨rr, qi5⟩
        rcases rr with e | u
        · have hred : Jobs.pullQueue jobsStore count now (fuel + 1) d qi acc
              = .errR e d qi5 := by
            simp only [Jobs.pullQueue, hn, if_neg hav, hr]
          rcases hres with hres | hres <;> rw [hred] at hres <;> cases hres
        · have hred : Jobs.pullQueue jobsStore count now (fuel + 1) d qi acc
              = .cont acc d qi5 := by
            simp only [Jobs.pullQueue, hn, if_neg hav, hr]
          rcases hres with hres | hres <;> rw [hred] at hres <;> cases hres
          exact Or.inl hx

theorem pullQueue_guarded (jobsStore : List (String × JobRec)) (count : Nat) (now : Int)
    (j : String) :
    ∀ (fuel : Nat) (d : ODict) (qi : QueueIterator) (acc : List (String × String)),
    (∀ v, d.lookup j = some v → ¬(now - v > JOB_LEASE_TIME)) →
    (∀ v, (Jobs.pullQueue jobsStore count now fuel d qi acc).dict.lookup j = some v →
        ¬(now - v > JOB_LEASE_TIME))
    ∧ (∀ (js : List (String × String)) (d2 : ODict) (qi2 : QueueIterator),
        (Jobs.pullQueue jobsStore count now fuel d qi acc = .ret js d2 qi2
          ∨ Jobs.pullQueue jobsStore count now fuel d qi acc = .cont js d2 qi2) →
        ∀ dd, (j, dd) ∈ js → (j, dd) ∈ acc) := by
  intro fuel
  induction fuel with
  | zero =>
    intro d qi acc hguard
    refine ⟨hguard, ?_⟩
    intro js d2 qi2 hres dd hdd
    rcases hres with hres | hres <;> cases hres
  | succ fuel ih =>
    intro d qi acc hguard
    rcases hn : qiNext d qi with ⟨res, qi4⟩
    rcases res with e | r
    · have hred : Jobs.pullQueue jobsStore count now (fuel + 1) d qi acc
          = .errR e d qi4 := by
        simp only [Jobs.pullQueue, hn]
      rw [hred]
      refine ⟨hguard, ?_⟩
      intro js d2 qi2 hres dd hdd
      rcases hres with hres | hres <;> cases hres
    · rcases qiNext_ok_spec hn with ⟨hlook, _, _, _⟩
      by_cases hav : now - r.1.2 > JOB_LEASE_TIME
      · have hrne : r.1.1 ≠ j := by
          intro hh
          rw [hh] at hlook
          exact (hguard r.1.2 hlook) hav
        have hguard2 : ∀ v, (d.set r.1.1 now).lookup j = some v →
            ¬(now - v > JOB_LEASE_TIME) := by
          intro v hv
          rw [ODict.lookup_set_ne (fun hh => hrne hh.symm)] at hv
          exact hguard v hv
        rcases hjb : lookupKV r.1.1 jobsStore with _ | rec
        · have hred : Jobs.pullQueue jobsStore count now (fuel + 1) d qi acc
              = .errR .keyError (d.set r.1.1 now) r.2 := by
            simp only [Jobs.pullQueue, hn, if_pos hav, hjb]
          rw [hred]
          refine ⟨hguard2, ?_⟩
          intro js d2 qi2 hres dd hdd
          rcases hres with hres | hres <;> cases hres
        · by_cases hc : count ≤ (acc ++ [(r.1.1, rec.data)]).length
          · have hred : Jobs.pullQueue jobsStore count now (fuel + 1) d qi acc
                = .ret (acc ++ [(r.1.1, rec.data)]) (d.set r.1.1 now) r.2 := by
              simp only [Jobs.pullQueue, hn, if_pos hav, hjb, if_pos hc]
            rw [hred]
            refine ⟨hguard2, ?_⟩
            intro js d2 qi2 hres dd hdd
            rcases hres with hres | hres <;> cases hres
            rcases List.mem_append.1 hdd with hdd | hdd
            · exact hdd
            · rw [List.mem_singleton] at hdd
              injection hdd with hdd1 hdd2
              exact absurd hdd1.symm hrne
          · have hred : Jobs.pullQueue jobsStore count now (fuel + 1) d qi acc
                = Jobs.pullQueue jobsStore count now fuel (d.set r.1.1 now) r.2
                    (acc ++ [(r.1.1, rec.data)]) := by
              simp only [Jobs.pullQueue, hn, if_pos hav, hjb, if_neg hc]
            rw [hred]
            rcases ih (d.set r.1.1 now) r.2 (acc ++ [(r.1.1, rec.data)]) hguard2 with
              ⟨ih1, ih2⟩
            refine ⟨ih1, ?_⟩
            intro js d2 qi2 hres dd hdd
            have := ih2 js d2 qi2 hres dd hdd
            rcases List.mem_append.1 this with h2 | h2
            · exact h2
            · rw [List.mem_singleton] at h2
              injection h2 with h21 h22
              exact absurd h21.symm hrne
      · rcases hr : qiRevert d r.2 with ⟨rr, qi5⟩
        rcases rr with e | u
        · have hred : Jobs.pullQueue jobsStore count now (fuel + 1) d qi acc
              = .errR e d qi5 := by
            simp only [Jobs.pullQueue, hn, if_neg hav, hr]
          rw [hred]
          refine ⟨hguard, ?_⟩
          intro js d2 qi2 hres dd hdd
          rcases hres with hres | hres <;> cases hres
        · have hred : Jobs.pullQueue jobsStore count now (fuel + 1) d qi acc
              = .cont acc d qi5 := by
            simp only [Jobs.pullQueue, hn, if_neg hav, hr]
          rw [hred]
          refine ⟨hguard, ?_⟩
          intro js d2 qi2 hres dd hdd
          rcases hres with hres | hres <;> cases hres
          exact hdd

theorem pullQueues_spec (jobsStore : List (String × JobRec)) (count : Nat) (now : Int) :
    ∀ (qids : List Int) (qs : List (Int × ODict)) (qis : List (Int × QueueIterator))
      (acc : List (String × String)),
    ((Jobs.pullQueues jobsStore count now qids qs qis acc).2.1.map Prod.fst
        = qs.map Prod.fst)
    ∧ ((Jobs.pullQueues jobsStore count now qids qs qis acc).2.2.map Prod.fst
        = qis.map Prod.fst)
    ∧ (∀ q d2, lookupKV q (Jobs.pullQueues jobsStore count now qids qs qis acc).2.1
          = some d2 →
        ∃ d, lookupKV q qs = some d ∧ d2.keys = d.keys
          ∧ d2.live.map Node.nid = d.live.map Node.nid ∧ d2.dead = d.dead
          ∧ d2.nextNid = d.nextNid
          ∧ (∀ k v, d2.lookup k = some v → d.lookup k = some v ∨ v = now)) := by
  intro qids
  induction qids with
  | nil =>
    intro qs qis acc
    exact ⟨rfl, rfl, fun q d2 h2 =>
      ⟨d2, h2, rfl, rfl, rfl, rfl, fun k v hv => Or.inl hv⟩⟩
  | cons qid rest ih =>
    intro qs qis acc
    rcases hq : lookupKV qid qs with _ | d
    · have hred : Jobs.pullQueues jobsStore count now (qid :: rest) qs qis acc
          = (.error .keyError, qs, qis) := by
        simp only [Jobs.pullQueues, hq]
      rw [hred]
      exact ⟨rfl, rfl, fun q d2 h2 =>
        ⟨d2, h2, rfl, rfl, rfl, rfl, fun k v hv => Or.inl hv⟩⟩
    · by_cases hemp : d.live.isEmpty
      · have hred : Jobs.pullQueues jobsStore count now (qid :: rest) qs qis acc
            = Jobs.pullQueues jobsStore count now rest qs qis acc := by
          simp only [Jobs.pullQueues, hq, hemp, if_true]
        rw [hred]
        exact ih qs qis acc
      · rcases hqi : lookupKV qid qis with _ | qi
        · have hred : Jobs.pullQueues jobsStore count now (qid :: rest) qs qis acc
              = (.error .keyError, qs, qis) := by
            simp only [Jobs.pullQueues, hq]
            rw [if_neg hemp]
            simp only [hqi]
          rw [hred]
          exact ⟨rfl, rfl, fun q d2 h2 =>
            ⟨d2, h2, rfl, rfl, rfl, rfl, fun k v hv => Or.inl hv⟩⟩
        · have hpq := pullQueue_dict jobsStore count now (count + 1) d qi acc
          rcases hp : Jobs.pullQueue jobsStore count now (count + 1) d qi acc with
            ⟨acc1, d1, qi1⟩ | ⟨acc1, d1, qi1⟩ | ⟨e, d1, qi1⟩
          all_goals rw [hp] at hpq
          -- ret case
          · have hred : Jobs.pullQueues jobsStore count now (qid :: rest) qs qis acc
                = (.ok acc1, setKV qid d1 qs, setKV qid qi1 qis) := by
              simp only [Jobs.pullQueues, hq]
              rw [if_neg hemp]
              simp only [hqi, hp]
            rw [hred]
            refine ⟨map_fst_setKV_of_some hq d1, map_fst_setKV_of_some hqi qi1, ?_⟩
            intro q d2 h2
            by_cases hqq : q = qid
            · subst hqq
              rw [lookupKV_setKV_self] at h2
              have hde : d2 = d1 := (Option.some.inj h2).symm
              subst hde
              exact ⟨d, hq, hpq.1, hpq.2.1, hpq.2.2.1, hpq.2.2.2.1, hpq.2.2.2.2.1⟩
            · rw [lookupKV_setKV_ne hqq] at h2
              exact ⟨d2, h2, rfl, rfl, rfl, rfl, fun k v hv => Or.inl hv⟩
          -- cont case
          · have hred : Jobs.pullQueues jobsStore count now (qid :: rest) qs qis acc
                = Jobs.pullQueues jobsStore count now rest (setKV qid d1 qs)
                    (setKV qid qi1 qis) acc1 := by
              simp only [Jobs.pullQueues, hq]
              rw [if_neg hemp]
              simp only [hqi, hp]
            rw [hred]
            rcases ih (setKV qid d1 qs) (setKV qid qi1 qis) acc1 with ⟨ih1, ih2, ih3⟩
            refine ⟨ih1.trans (map_fst_setKV_of_some hq d1),
              ih2.trans (map_fst_setKV_of_some hqi qi1), ?_⟩
            intro q d2 h2
            rcases ih3 q d2 h2 with ⟨dmid, hdmid, hk1, hk2, hk3, hk4, hk5⟩
            by_cases hqq : q = qid
            · subst hqq
              rw [lookupKV_setKV_self] at hdmid
              have hde : dmid = d1 := (Option.some.inj hdmid).symm
              subst hde
              refine ⟨d, hq, hk1.trans hpq.1, hk2.trans hpq.2.1, hk3.trans hpq.2.2.1,
                hk4.trans hpq.2.2.2.1, ?_⟩
              intro k v hv
              rcases hk5 k v hv with hv2 | hv2
              · exact hpq.2.2.2.2.1 k v hv2
              · exact Or.inr hv2
            · rw [lookupKV_setKV_ne hqq] at hdmid
              exact ⟨dmid, hdmid, hk1, hk2, hk3, hk4, hk5⟩
          -- error case
          · have hred : Jobs.pullQueues jobsStore count now (qid :: rest) qs qis acc
                = (.error e, setKV qid d1 qs, setKV qid qi1 qis) := by
              simp only [Jobs.pullQueues, hq]
              rw [if_neg hemp]
              simp only [hqi, hp]
            rw [hred]
            refine ⟨map_fst_setKV_of_some hq d1, map_fst_setKV_of_some hqi qi1, ?_⟩
            intro q d2 h2
            by_cases hqq : q = qid
            · subst hqq
              rw [lookupKV_setKV_self] at h2
              have hde : d2 = d1 := (Option.some.inj h2).symm
              subst hde
              exact ⟨d, hq, hpq.1, hpq.2.1, hpq.2.2.1, hpq.2.2.2.1, hpq.2.2.2.2.1⟩
            · rw [lookupKV_setKV_ne hqq] at h2
              exact ⟨d2, h2, rfl, rfl, rfl, rfl, fun k v hv => Or.inl hv⟩

theorem pull_components (count : Nat) (now : Int) (s : Store) :
    (Jobs.pull count now s).2.jobs = s.jobs
    ∧ (Jobs.pull count now s).2.tasks = s.tasks
    ∧ (Jobs.pull count now s).2.queues
        = (Jobs.pullQueues s.jobs count now (s.queues.map Prod.fst) s.queues
            s.queue_iter []).2.1
    ∧ (Jobs.pull count now s).2.queue_iter
        = (Jobs.pullQueues s.jobs count now (s.queues.map Prod.fst) s.queues
            s.queue_iter []).2.2
    ∧ (Jobs.pull count now s).1
        = (Jobs.pullQueues s.jobs count now (s.queues.map Prod.fst) s.queues
            s.queue_iter []).1 := by
  unfold Jobs.pull
  rcases h : Jobs.pullQueues s.jobs count now (s.queues.map Prod.fst) s.queues
    s.queue_iter [] with ⟨res, qs, qis⟩
  exact ⟨rfl, rfl, rfl, rfl, rfl⟩

theorem InvS_pull (count : Nat) (now : Int) {s : Store} (h : InvS s) :
    InvS (Jobs.pull count now s).2 := by
  rcases pull_components count now s with ⟨hjobs, htasks, hqueues, hiter, _⟩
  rcases pullQueues_spec s.jobs count now (s.queues.map Prod.fst) s.queues s.queue_iter []
    with ⟨hfst, hifst, hdict⟩
  have hkeys_eq : ∀ q d2, lookupKV q (Jobs.pull count now s).2.queues = some d2 →
      ∃ d, lookupKV q s.queues = some d ∧ d2.keys = d.keys := by
    intro q d2 h2
    rw [hqueues] at h2
    rcases hdict q d2 h2 with ⟨d, hd, hk, _⟩
    exact ⟨d, hd, hk⟩
  have hkeys_rev : ∀ q d, lookupKV q s.queues = some d →
      ∃ d2, lookupKV q (Jobs.pull count now s).2.queues = some d2 ∧ d2.keys = d.keys := by
    intro q d hd
    have hmem : q ∈ (Jobs.pull count now s).2.queues.map Prod.fst := by
      rw [hqueues, hfst]
      exact mem_keys_of_lookupKV hd
    rcases lookupKV_isSome_of_mem hmem with ⟨d2, hd2⟩
    rcases hkeys_eq q d2 hd2 with ⟨d3, hd3, hk⟩
    have hde : d3 = d := Option.some.inj (hd3.symm.trans hd)
    subst hde
    exact ⟨d2, hd2, hk⟩
  refine ⟨?_, ?_, ?_, ?_, ?_, ?_, ?_, ?_, ?_, ?_, ?_⟩
  · rw [hjobs]
    exact h.jobs_nodup
  · rw [hqueues, hfst]
    exact h.queues_nodup
  · rw [htasks]
    exact h.tasks_nodup
  · rw [hqueues, hiter, hfst, hifst]
    exact h.qiter_keys
  · intro q d2 h2
    rcases hkeys_eq q d2 h2 with ⟨d, hd, hk⟩
    rw [hk]
    exact h.live_nodup q d hd
  · intro j rec hrec
    rw [hjobs] at hrec
    exact h.rec_nodup j rec hrec
  · intro q d2 h2 j hj
    rcases hkeys_eq q d2 h2 with ⟨d, hd, hk⟩
    rw [hk] at hj
    rcases h.queue_to_job q d hd j hj with ⟨rec, hrec, hqin⟩
    exact ⟨rec, by rw [hjobs]; exact hrec, hqin⟩
  · intro j rec hrec q hq
    rw [hjobs] at hrec
    rcases h.job_to_queue j rec hrec q hq with ⟨d, hd, hjmem⟩
    rcases hkeys_rev q d hd with ⟨d2, hd2, hk⟩
    exact ⟨d2, hd2, by rw [hk]; exact hjmem⟩
  · intro t ts hts
    rw [htasks] at hts
    exact h.task_nonempty t ts hts
  · intro t ts hts j hj
    rw [htasks] at hts
    rcases h.task_to_job t ts hts j hj with ⟨rec, hrec, htin⟩
    exact ⟨rec, by rw [hjobs]; exact hrec, htin⟩
  · intro j rec hrec t ht
    rw [hjobs] at hrec
    rcases h.job_to_task j rec hrec t ht with ⟨ts, hts, hjmem⟩
    exact ⟨ts, by rw [htasks]; exact hts, hjmem⟩

theorem Reach_InvS {s : Store} (h : Reach s) : InvS s := by
  induction h with
  | empty => exact InvS_empty
  | add j t q dat _ ih => exact InvS_add j t q dat ih
  | remove j _ ih => exact InvS_remove j ih
  | pull count now _ ih => exact InvS_pull count now ih

theorem eraseKV_of_not_mem {κ α : Type} [DecidableEq κ] {k : κ} {l : List (κ × α)}
    (h : lookupKV k l = none) : eraseKV k l = l := by
  induction l with
  | nil => rfl
  | cons p rest ih =>
    by_cases hp : p.1 = k
    · rw [lookupKV, if_pos hp] at h
      cases h
    · rw [lookupKV, if_neg hp] at h
      rw [eraseKV_cons_ne hp, ih h]

theorem length_eraseKV_of_mem {κ α : Type} [DecidableEq κ] {k : κ} {l : List (κ × α)}
    (hnd : (l.map Prod.fst).Nodup) {v : α} (h : lookupKV k l = some v) :
    (eraseKV k l).length + 1 = l.length := by
  induction l with
  | nil => cases h
  | cons p rest ih =>
    rw [List.map_cons, List.nodup_cons] at hnd
    by_cases hp : p.1 = k
    · have hrest : lookupKV k rest = none := by
        rw [lookupKV_eq_none]
        exact hp ▸ hnd.1
      rw [eraseKV_cons_self hp, eraseKV_of_not_mem hrest]
      simp
    · rw [lookupKV, if_neg hp] at h
      rw [eraseKV_cons_ne hp]
      simp only [List.length_cons]
      rw [ih hnd.2 h]

theorem pullQueues_append (jobsStore : List (String × JobRec)) (count : Nat) (now : Int) :
    ∀ (qids : List Int) (qs : List (Int × ODict)) (qis : List (Int × QueueIterator))
      (acc : List (String × String)),
    (∀ x : String × String, x ∈ acc →
      ∃ q d, lookupKV q qs = some d ∧ d.lookup x.1 = some now) →
    ∀ js, (Jobs.pullQueues jobsStore count now qids qs qis acc).1 = .ok js →
    ∀ x, x ∈ js →
      ∃ q d,
        lookupKV q (Jobs.pullQueues jobsStore count now qids qs qis acc).2.1 = some d
        ∧ d.lookup x.1 = some now := by
  intro qids
  induction qids with
  | nil =>
    intro qs qis acc hacc js hok x hx
    injection hok with hje
    subst hje
    exact hacc x hx
  | cons qid rest ih =>
    intro qs qis acc hacc js hok x hx
    rcases hq : lookupKV qid qs with _ | d
    · have hred : Jobs.pullQueues jobsStore count now (qid :: rest) qs qis acc
          = (.error .keyError, qs, qis) := by
        simp only [Jobs.pullQueues, hq]
      rw [hred] at hok
      cases hok
    · by_cases hemp : d.live.isEmpty
      · have hred : Jobs.pullQueues jobsStore count now (qid :: rest) qs qis acc
            = Jobs.pullQueues jobsStore count now rest qs qis acc := by
          simp only [Jobs.pullQueues, hq, hemp, if_true]
        rw [hred] at hok ⊢
        exact ih qs qis acc hacc js hok x hx
      · rcases hqi : lookupKV qid qis with _ | qi
        · have hred : Jobs.pullQueues jobsStore count now (qid :: rest) qs qis acc
              = (.error .keyError, qs, qis) := by
            simp only [Jobs.pullQueues, hq]
            rw [if_neg hemp]
            simp only [hqi]
          rw [hred] at hok
          cases hok
        · have hstab := (pullQueue_dict jobsStore count now (count + 1) d qi acc).2.2.2.2.2
          rcases hp : Jobs.pullQueue jobsStore count now (count + 1) d qi acc with
            ⟨acc1, d1, qi1⟩ | ⟨acc1, d1, qi1⟩ | ⟨e, d1, qi1⟩
          all_goals rw [hp] at hstab
          all_goals simp only [Jobs.PQRes.dict] at hstab
          -- ret case
          · have hred : Jobs.pullQueues jobsStore count now (qid :: rest) qs qis acc
                = (.ok acc1, setKV qid d1 qs, setKV qid qi1 qis) := by
              simp only [Jobs.pullQueues, hq]
              rw [if_neg hemp]
              simp only [hqi, hp]
            have htrans : ∀ y : String × String,
                (∃ q0 d0, lookupKV q0 qs = some d0 ∧ d0.lookup y.1 = some now) →
                ∃ q0 d0, lookupKV q0 (setKV qid d1 qs) = some d0
                  ∧ d0.lookup y.1 = some now := by
              intro y hy
              rcases hy with ⟨q0, d0, hd0, hv0⟩
              by_cases hqq : q0 = qid
              · subst hqq
                have hde : d0 = d := Option.some.inj (hd0.symm.trans hq)
                subst hde
                exact ⟨q0, d1, lookupKV_setKV_self q0 d1 qs, hstab y.1 hv0⟩
              · exact ⟨q0, d0, by rw [lookupKV_setKV_ne hqq]; exact hd0, hv0⟩
            rw [hred] at hok ⊢
            injection hok with hje
            subst hje
            rcases pullQueue_append jobsStore count now (count + 1) d qi acc acc1 d1 qi1
                (Or.inl hp) x hx with hx2 | ⟨hk, hv⟩
            · exact htrans x (hacc x hx2)
            · exact ⟨qid, d1, lookupKV_setKV_self qid d1 qs, hv⟩
          -- cont case
          · have hred : Jobs.pullQueues jobsStore count now (qid :: rest) qs qis acc
                = Jobs.pullQueues jobsStore count now rest (setKV qid d1 qs)
                    (setKV qid qi1 qis) acc1 := by
              simp only [Jobs.pullQueues, hq]
              rw [if_neg hemp]
              simp only [hqi, hp]
            have htrans : ∀ y : String × String,
                (∃ q0 d0, lookupKV q0 qs = some d0 ∧ d0.lookup y.1 = some now) →
                ∃ q0 d0, lookupKV q0 (setKV qid d1 qs) = some d0
                  ∧ d0.lookup y.1 = some now := by
              intro y hy
              rcases hy with ⟨q0, d0, hd0, hv0⟩
              by_cases hqq : q0 = qid
              · subst hqq
                have hde : d0 = d := Option.some.inj (hd0.symm.trans hq)
                subst hde
                exact ⟨q0, d1, lookupKV_setKV_self q0 d1 qs, hstab y.1 hv0⟩
              · exact ⟨q0, d0, by rw [lookupKV_setKV_ne hqq]; exact hd0, hv0⟩
            rw [hred] at hok ⊢
            have hacc1 : ∀ y : String × String, y ∈ acc1 →
                ∃ q0 d0, lookupKV q0 (setKV qid d1 qs) = some d0
                  ∧ d0.lookup y.1 = some now := by
              intro y hy
              rcases pullQueue_append jobsStore count now (count + 1) d qi acc acc1 d1 qi1
                  (Or.inr hp) y hy with hy2 | ⟨hk, hv⟩
              · exact htrans y (hacc y hy2)
              · exact ⟨qid, d1, lookupKV_setKV_self qid d1 qs, hv⟩
            exact ih (setKV qid d1 qs) (setKV qid qi1 qis) acc1 hacc1 js hok x hx
          -- error case
          · have hred : Jobs.pullQueues jobsStore count now (qid :: rest) qs qis acc
                = (.error e, setKV qid d1 qs, setKV qid qi1 qis) := by
              simp only [Jobs.pullQueues, hq]
              rw [if_neg hemp]
              simp only [hqi, hp]
            rw [hred] at hok
            cases hok

theorem pullQueues_guarded (jobsStore : List (String × JobRec)) (count : Nat) (now : Int)
    (j : String) :
    ∀ (qids : List Int) (qs : List (Int × ODict)) (qis : List (Int × QueueIterator))
      (acc : List (String × String)),
    (∀ q d, lookupKV q qs = some d → ∀ v, d.lookup j = some v →
        ¬(now - v > JOB_LEASE_TIME)) →
    ∀ js, (Jobs.pullQueues jobsStore count now qids qs qis acc).1 = .ok js →
    ∀ dd, (j, dd) ∈ js → (j, dd) ∈ acc := by
  intro qids
  induction qids with
  | nil =>
    intro qs qis acc hguard js hok dd hdd
    injection hok with hje
    subst hje
    exact hdd
  | cons qid rest ih =>
    intro qs qis acc hguard js hok dd hdd
    rcases hq : lookupKV qid qs with _ | d
    · have hred : Jobs.pullQueues jobsStore count now (qid :: rest) qs qis acc
          = (.error .keyError, qs, qis) := by
        simp only [Jobs.pullQueues, hq]
      rw [hred] at hok
      cases hok
    · by_cases hemp : d.live.isEmpty
      · have hred : Jobs.pullQueues jobsStore count now (qid :: rest) qs qis acc
            = Jobs.pullQueues jobsStore count now rest qs qis acc := by
          simp only [Jobs.pullQueues, hq, hemp, if_true]
        rw [hred] at hok
        exact ih qs qis acc hguard js hok dd hdd
      · rcases hqi : lookupKV qid qis with _ | qi
        · have hred : Jobs.pullQueues jobsStore count now (qid :: rest) qs qis acc
              = (.error .keyError, qs, qis) := by
            simp only [Jobs.pullQueues, hq]
            rw [if_neg hemp]
            simp only [hqi]
          rw [hred] at hok
          cases hok
        · have hdguard : ∀ v, d.lookup j = some v → ¬(now - v > JOB_LEASE_TIME) :=
            hguard qid d hq
          have hpg := pullQueue_guarded jobsStore count now j (count + 1) d qi acc hdguard
          rcases hp : Jobs.pullQueue jobsStore count now (count + 1) d qi acc with
            ⟨acc1, d1, qi1⟩ | ⟨acc1, d1, qi1⟩ | ⟨e, d1, qi1⟩
          all_goals rw [hp] at hpg
          · have hred : Jobs.pullQueues jobsStore count now (qid :: rest) qs qis acc
                = (.ok acc1, setKV qid d1 qs, setKV qid qi1 qis) := by
              simp only [Jobs.pullQueues, hq]
              rw [if_neg hemp]
              simp only [hqi, hp]
            rw [hred] at hok
            injection hok with hje
            subst hje
            exact hpg.2 acc1 d1 qi1 (Or.inl rfl) dd hdd
          · have hred : Jobs.pullQueues jobsStore count now (qid :: rest) qs qis acc
                = Jobs.pullQueues jobsStore count now rest (setKV qid d1 qs)
                    (setKV qid qi1 qis) acc1 := by
              simp only [Jobs.pullQueues, hq]
              rw [if_neg hemp]
              simp only [hqi, hp]
            rw [hred] at hok
            have hguard1 : ∀ q0 d0, lookupKV q0 (setKV qid d1 qs) = some d0 →
                ∀ v, d0.lookup j = some v → ¬(now - v > JOB_LEASE_TIME) := by
              intro q0 d0 hd0 v hv
              by_cases hqq : q0 = qid
              · subst hqq
                rw [lookupKV_setKV_self] at hd0
                have hde : d0 = d1 := (Option.some.inj hd0).symm
                subst hde
                exact hpg.1 v hv
              · rw [lookupKV_setKV_ne hqq] at hd0
                exact hguard q0 d0 hd0 v hv
            have := ih (setKV qid d1 qs) (setKV qid qi1 qis) acc1 hguard1 js hok dd hdd
            exact hpg.2 acc1 d1 qi1 (Or.inr rfl) dd this
          · have hred : Jobs.pullQueues jobsStore count now (qid :: rest) qs qis acc
                = (.error e, setKV qid d1 qs, setKV qid qi1 qis) := by
              simp only [Jobs.pullQueues, hq]
              rw [if_neg hemp]
              simp only [hqi, hp]
            rw [hred] at hok
            cases hok

theorem pull_returned_leased {count : Nat} {now : Int} {s : Store}
    {r1 : List (String × String)} {s1 : Store}
    (h : Jobs.pull count now s = (.ok r1, s1)) :
    ∀ x : String × String, x ∈ r1 →
      ∃ q d, lookupKV q s1.queues = some d ∧ d.lookup x.1 = some now := by
  rcases pull_components count now s with ⟨_, _, hqueues, _, hres⟩
  have h1 : (Jobs.pullQueues s.jobs count now (s.queues.map Prod.fst) s.queues
      s.queue_iter []).1 = .ok r1 := by
    rw [← hres, h]
  have hq1 : s1.queues = (Jobs.pullQueues s.jobs count now (s.queues.map Prod.fst)
      s.queues s.queue_iter []).2.1 := by
    rw [← hqueues, h]
  intro x hx
  have := pullQueues_append s.jobs count now (s.queues.map Prod.fst) s.queues s.queue_iter
    [] (fun y hy => absurd hy (List.not_mem_nil y)) r1 h1 x hx
  rw [← hq1] at this
  exact this

theorem pull_guarded_not_returned {count : Nat} {now : Int} {s : Store} {j : String}
    (hguard : ∀ q d, lookupKV q s.queues = some d → ∀ v, d.lookup j = some v →
        ¬(now - v > JOB_LEASE_TIME))
    {r : List (String × String)} (h : (Jobs.pull count now s).1 = .ok r) :
    ∀ dd, (j, dd) ∉ r := by
  rcases pull_components count now s with ⟨_, _, _, _, hres⟩
  have h1 : (Jobs.pullQueues s.jobs count now (s.queues.map Prod.fst) s.queues
      s.queue_iter []).1 = .ok r := by
    rw [← hres, h]
  intro dd hdd
  exact absurd (pullQueues_guarded s.jobs count now j (s.queues.map Prod.fst) s.queues
    s.queue_iter [] hguard r h1 dd hdd) (List.not_mem_nil _)

/-! ## Cursor soundness on histories without removals -/

theorem succAfter_mem {i : Nat} {l : List Node} {n : Node} (h : succAfter i l = some n) :
    n ∈ l := by
  induction l with
  | nil => cases h
  | cons m rest ih =>
    by_cases hm : m.nid = i
    · rw [succAfter, if_pos hm] at h
      rcases rest with _ | ⟨x, xs⟩
      · cases h
      · have he : x = n := Option.some.inj h
        subst he
        exact List.mem_cons_of_mem _ (List.mem_cons_self _ _)
    · rw [succAfter, if_neg hm] at h
      exact List.mem_cons_of_mem _ (ih h)

theorem succAfter_append {l1 : List Node} {n : Node} (l2 : List Node)
    (hn : n.nid ∉ l1.map Node.nid) :
    succAfter n.nid (l1 ++ n :: l2) = l2.head? := by
  induction l1 with
  | nil =>
    rw [List.nil_append, succAfter, if_pos rfl]
  | cons a rest ih =>
    have ha : a.nid ≠ n.nid := by
      intro hh
      exact hn (List.mem_map.2 ⟨a, List.mem_cons_self a rest, hh⟩)
    rw [List.cons_append, succAfter, if_neg ha]
    exact ih (fun hh => hn (List.mem_cons_of_mem _ hh))

theorem iterStep_sound {d : ODict} {pos : Option Nat}
    (hdead : d.dead = [])
    (hpos : pos = none ∨ ∃ p, pos = some p ∧ p ∈ d.live.map Node.nid) :
    iterStep d pos = .stopS ∨
    ∃ k v p, iterStep d pos = .yieldS k v p ∧ p ∈ d.live.map Node.nid
      ∧ d.lookup k = some v ∧ k ∈ d.keys := by
  rcases hpos with hpos | ⟨p, hpos, hp⟩
  · subst hpos
    rcases hl : d.live with _ | ⟨m, rest⟩
    · left
      have hcurr : currOf d none = none := by
        simp only [currOf]
        rw [hl]
        rfl
      simp only [iterStep, hcurr]
    · right
      have hm : m ∈ d.live := by
        rw [hl]
        exact List.mem_cons_self m rest
      have hmk : m.key ∈ d.keys := List.mem_map.2 ⟨m, hm, rfl⟩
      rcases ODict.lookup_isSome_of_mem_keys hmk with ⟨v, hv⟩
      have hcurr : currOf d none = some (m.nid, m.key) := by
        simp only [currOf]
        rw [hl]
        rfl
      refine ⟨m.key, v, m.nid, ?_,
        List.mem_map.2 ⟨m, List.mem_cons_self m rest, rfl⟩, hv, hmk⟩
      simp only [iterStep, hcurr, hv]
  · subst hpos
    have hany : (d.live.any fun n => n.nid = p) = true := by
      rw [List.any_eq_true]
      rcases List.mem_map.1 hp with ⟨n, hn, hnid⟩
      exact ⟨n, hn, by simpa using hnid⟩
    rcases hs : succAfter p d.live with _ | m
    · left
      have hcurr : currOf d (some p) = none := by
        simp only [currOf]
        rw [if_pos hany, hs]
        rfl
      simp only [iterStep, hcurr]
    · right
      have hm : m ∈ d.live := succAfter_mem hs
      have hmk : m.key ∈ d.keys := List.mem_map.2 ⟨m, hm, rfl⟩
      rcases ODict.lookup_isSome_of_mem_keys hmk with ⟨v, hv⟩
      have hcurr : currOf d (some p) = some (m.nid, m.key) := by
        simp only [currOf]
        rw [if_pos hany, hs]
        rfl
      refine ⟨m.key, v, m.nid, ?_, List.mem_map.2 ⟨m, hm, rfl⟩, hv, hmk⟩
      simp only [iterStep, hcurr, hv]

theorem qiNext_sound {d : ODict} {qi : QueueIterator}
    (hdead : d.dead = [])
    (hpos : qi.pos = none ∨ ∃ p, qi.pos = some p ∧ p ∈ d.live.map Node.nid)
    (hne : d.live ≠ []) :
    ∃ k v p, qiNext d qi
        = (.ok ((k, v), ⟨qi.count + 1, some p⟩), ⟨qi.count + 1, some p⟩)
      ∧ p ∈ d.live.map Node.nid ∧ d.lookup k = some v ∧ k ∈ d.keys := by
  have hne2 : d.live.isEmpty = false := by
    rcases hl : d.live with _ | ⟨m, rest⟩
    · exact absurd hl hne
    · rfl
  rcases iterStep_sound hdead hpos with hstop | ⟨k, v, p, hyield, hp, hv, hk⟩
  · rcases iterStep_sound hdead (Or.inl rfl) (d := d) with hstop2 |
      ⟨k, v, p, hyield2, hp, hv, hk⟩
    · exfalso
      rcases hl : d.live with _ | ⟨m, rest⟩
      · exact hne hl
      · have hcurr : currOf d none = some (m.nid, m.key) := by
          simp only [currOf]
          rw [hl]
          rfl
        rw [show iterStep d none
            = (match d.lookup m.key with
               | some v => StepRes.yieldS m.key v m.nid
               | none => StepRes.keyErrorS) from by simp only [iterStep, hcurr]] at hstop2
        rcases hlk : d.lookup m.key with _ | w <;> rw [hlk] at hstop2 <;> cases hstop2
    · refine ⟨k, v, p, ?_, hp, hv, hk⟩
      simp only [qiNext, hne2, Bool.false_eq_true, if_false, hstop, hyield2]
  · refine ⟨k, v, p, ?_, hp, hv, hk⟩
    simp only [qiNext, hne2, Bool.false_eq_true, if_false, hyield]

theorem advanceN_ok {d : ODict} (hdead : d.dead = [])
    (hnd : (d.live.map Node.nid).Nodup) :
    ∀ (steps : Nat) (l1 l2 : List Node) (pos : Option Nat),
    d.live = l1 ++ l2 →
    ((pos = none ∧ l1 = []) ∨ (∃ n l1x, l1 = l1x ++ [n] ∧ pos = some n.nid)) →
    steps ≤ l2.length →
    ∃ pos2, advanceN d steps pos = (.ok (), pos2) ∧
      (pos2 = none ∨ ∃ p, pos2 = some p ∧ p ∈ d.live.map Node.nid) := by
  intro steps
  induction steps with
  | zero =>
    intro l1 l2 pos hsplit hinv hle
    refine ⟨pos, rfl, ?_⟩
    rcases hinv with ⟨hpos, _⟩ | ⟨n, l1x, hl1, hpos⟩
    · exact Or.inl hpos
    · refine Or.inr ⟨n.nid, hpos, ?_⟩
      have hn : n ∈ d.live := by
        rw [hsplit, hl1]
        exact List.mem_append.2 (Or.inl (List.mem_append.2 (Or.inr
          (List.mem_singleton.2 rfl))))
      exact List.mem_map.2 ⟨n, hn, rfl⟩
  | succ steps ih =>
    intro l1 l2 pos hsplit hinv hle
    rcases l2 with _ | ⟨m, l2x⟩
    · simp at hle
    · have hm : m ∈ d.live := by
        rw [hsplit]
        exact List.mem_append.2 (Or.inr (List.mem_cons_self m l2x))
      have hmk : m.key ∈ d.keys := List.mem_map.2 ⟨m, hm, rfl⟩
      rcases ODict.lookup_isSome_of_mem_keys hmk with ⟨v, hv⟩
      have hstep : iterStep d pos = .yieldS m.key v m.nid := by
        rcases hinv with ⟨hpos, hl1⟩ | ⟨n, l1x, hl1, hpos⟩
        · subst hpos
          subst hl1
          have hcurr : currOf d none = some (m.nid, m.key) := by
            simp only [currOf]
            rw [hsplit]
            rfl
          simp only [iterStep, hcurr, hv]
        · subst hpos
          subst hl1
          have hnn : n.nid ∉ l1x.map Node.nid := by
            intro hmem
            have hcontra : ¬ (d.live.map Node.nid).Nodup := by
              rw [hsplit, List.map_append, List.map_append]
              intro hnd2
              rcases List.nodup_append.1 hnd2 with ⟨hnd3, _, _⟩
              rcases List.nodup_append.1 hnd3 with ⟨_, _, hdisj⟩
              exact hdisj hmem (by simp)
            exact hcontra hnd
          have hany : (d.live.any fun x => x.nid = n.nid) = true := by
            rw [List.any_eq_true]
            refine ⟨n, ?_, by simp⟩
            rw [hsplit]
            exact List.mem_append.2 (Or.inl (List.mem_append.2 (Or.inr (by simp))))
          have hsucc : succAfter n.nid d.live = some m := by
            rw [hsplit, show (l1x ++ [n]) ++ m :: l2x = l1x ++ n :: (m :: l2x) from by
              simp]
            rw [succAfter_append (m :: l2x) hnn]
            rfl
          have hcurr : currOf d (some n.nid) = some (m.nid, m.key) := by
            simp only [currOf]
            rw [if_pos hany, hsucc]
            rfl
          simp only [iterStep, hcurr, hv]
      rw [advanceN, hstep]
      exact ih (l1 ++ [m]) l2x (some m.nid)
        (by rw [hsplit]; simp)
        (Or.inr ⟨m, l1, rfl, rfl⟩)
        (by simpa using Nat.le_of_succ_le_succ hle)

theorem qiRevert_ok {d : ODict} {qi : QueueIterator}
    (hdead : d.dead = []) (hnd : (d.live.map Node.nid).Nodup)
    (hcount : 2 ≤ qi.count) :
    ∃ pos2, qiRevert d qi = (.ok (), ⟨qi.count - 1, pos2⟩) ∧
      (pos2 = none ∨ ∃ p, pos2 = some p ∧ p ∈ d.live.map Node.nid) := by
  have hc : qi.count - 1 ≠ 0 := by omega
  have hc1 : (1 : Int) ≤ qi.count - 1 := by omega
  have hbound : (Int.fmod (d.live.length : Int) (qi.count - 1)).toNat ≤ d.live.length := by
    rw [Int.fmod_eq_emod _ (by omega)]
    have h0 : (0 : Int) ≤ (d.live.length : Int) % (qi.count - 1) :=
      Int.emod_nonneg _ (by omega)
    by_cases hcl : (qi.count - 1) ≤ (d.live.length : Int)
    · have := Int.emod_lt_of_pos (d.live.length : Int) (show 0 < qi.count - 1 by omega)
      omega
    · rw [Int.emod_eq_of_lt (by omega) (by omega)]
      omega
  rcases advanceN_ok hdead hnd (Int.fmod (d.live.length : Int) (qi.count - 1)).toNat
      [] d.live none rfl (Or.inl ⟨rfl, rfl⟩) hbound with ⟨pos2, hadv, hvalid⟩
  refine ⟨pos2, ?_, hvalid⟩
  simp only [qiRevert]
  rw [if_neg hc, hadv]

/-! ## Claims settled by direct evaluation -/

/-- C9: starting from an empty store, `add("j1","t1",1,"x")` then
`add("j2","t1",1,"y")` then an immediate `pull(count=2)` (at time 1000,
lease duration 600) returns exactly `[("j1","x"),("j2","y")]` in that
order, and a third `pull(count=1)` one time unit later — well before the
lease has elapsed — returns the empty sequence. -/
theorem C9_concrete_scenario :
    (Jobs.pull 2 1000 traceC9).1 = .ok [("j1", "x"), ("j2", "y")]
    ∧ (Jobs.pull 1 1001 (Jobs.pull 2 1000 traceC9).2).1 = .ok [] :=
  ⟨rfl, rfl⟩

/-- C1: the claim that `pull` visits queue ids in ascending sorted order
fails on the code: `queues_ids` is sorted and then never used, and the
loop iterates the raw `self.queues` dictionary.  With queues created in
the order 9 then 1 (dictionary iteration order 9, 1 — for CPython 2 the
hash order of these keys equals their insertion order), `pull(2)` returns
queue 9's job before queue 1's job although `1 < 9`. -/
theorem C1_pull_visits_dict_order_not_sorted :
    (Jobs.pull 2 1000 traceC1).1 = .ok [("jA", "x"), ("jB", "y")]
    ∧ (1 : Int) < 9 ∧ [("jA", "x"), ("jB", "y")] ≠ [("jB", "y"), ("jA", "x")] :=
  ⟨rfl, by decide, by decide⟩

/-- C3 counterexample: the claim fails as stated.  Job `j` belongs to
queues 1 and 2; `pull(1)` at time 1000 returns `j` (leasing only queue
1's entry), and the immediately following `pull(1)` at time 1001 — one
time unit later, far below the lease duration 600 — returns `j` again,
served from queue 2's still-fresh entry. -/
theorem C3_counterexample :
    (Jobs.pull 1 1000 traceC3).1 = .ok [("j", "x")]
    ∧ (Jobs.pull 1 1001 (Jobs.pull 1 1000 traceC3).2).1 = .ok [("j", "x")]
    ∧ (1001 : Int) - 1000 ≤ JOB_LEASE_TIME :=
  ⟨rfl, rfl, by decide⟩

/-- C2 counterexample: the claim fails as stated.  From the reachable
store `traceC2` (adds, a pull, then two removes), the next `pull(1)`
raises a `KeyError`: queue 1's cursor still holds the generator suspended
at `B`'s deleted node, whose frozen successor pointer leads to `C`'s
deleted node, and the `self[k]` lookup inside `iteritems` fails. -/
theorem C2_counterexample :
    (Jobs.pull 1 2000 traceC2).1 = .error .keyError :=
  rfl

/-- C4: the claim that revert undoes the last advance fails on the code,
contradicting the source's own comment that the iterator must "enable a
revert of the last yielded object".  In the reachable state `traceC4`
(queue `A ↦ 1000, B ↦ 1100`, cursor count 2 suspended past `B`), an
advance wraps to `("A",1000)`, the next advance yields `("B",1100)`, and
after reverting that advance the next advance yields `("A",1000)` again —
not the reverted entry `("B",1100)` — because `revert` repositions by
`len(queue) % count = 2 % 3 = 2` steps, leaving the cursor after `B`. -/
theorem C4_revert_does_not_undo_advance :
    lookupKV 1 traceC4.queues = some ⟨[⟨0, "A", 1000⟩, ⟨1, "B", 1100⟩], [], 2⟩
    ∧ lookupKV 1 traceC4.queue_iter = some ⟨2, some 1⟩
    ∧ (qiNext ⟨[⟨0, "A", 1000⟩, ⟨1, "B", 1100⟩], [], 2⟩ ⟨2, some 1⟩).1
        = .ok (("A", 1000), ⟨3, some 0⟩)
    ∧ (qiNext ⟨[⟨0, "A", 1000⟩, ⟨1, "B", 1100⟩], [], 2⟩ ⟨3, some 0⟩).1
        = .ok (("B", 1100), ⟨4, some 1⟩)
    ∧ qiRevert ⟨[⟨0, "A", 1000⟩, ⟨1, "B", 1100⟩], [], 2⟩ ⟨4, some 1⟩ = (.ok (), ⟨3, some 1⟩)
    ∧ (qiNext ⟨[⟨0, "A", 1000⟩, ⟨1, "B", 1100⟩], [], 2⟩ ⟨3, some 1⟩).1
        = .ok (("A", 1000), ⟨4, some 0⟩)
    ∧ (("A", (1000 : Int)) ≠ ("B", (1100 : Int))) :=
  ⟨rfl, rfl, rfl, rfl, rfl, rfl, by decide⟩


/-- C10: cross-index consistency invariant: in every store state reachable
through `add`, `remove` and `pull`, every job id appearing in any queue's
ordered mapping or in any task's job set is a key of the job store, and
conversely each stored job's queue set names exactly the queues whose
mapping contains that job id and its task set names exactly the
tasks whose set contains that job id; each operation preserves this
invariant (reachability is closed under all three operations). -/
theorem C10_cross_index_invariant {s : Store} (h : Reach s) : CrossIndexInv s := by
  have hi := Reach_InvS h
  refine ⟨?_, ?_, ?_, ?_⟩
  · intro q d hd j hj
    rcases hi.queue_to_job q d hd j hj with ⟨rec, hrec, _⟩
    exact ⟨rec, hrec⟩
  · intro t ts hts j hj
    rcases hi.task_to_job t ts hts j hj with ⟨rec, hrec, _⟩
    exact ⟨rec, hrec⟩
  · intro j rec hrec q
    constructor
    · intro hq
      rcases hi.job_to_queue j rec hrec q hq with ⟨d, hd, hmem⟩
      exact ⟨d, hd, hmem⟩
    · rintro ⟨d, hd, hmem⟩
      rcases hi.queue_to_job q d hd j hmem with ⟨rec2, hrec2, hqin⟩
      have he : rec2 = rec := Option.some.inj (hrec2.symm.trans hrec)
      exact he ▸ hqin
  · intro j rec hrec t
    constructor
    · intro ht
      rcases hi.job_to_task j rec hrec t ht with ⟨ts, hts, hmem⟩
      exact ⟨ts, hts, hmem⟩
    · rintro ⟨ts, hts, hmem⟩
      rcases hi.task_to_job t ts hts j hmem with ⟨rec2, hrec2, htin⟩
      have he : rec2 = rec := Option.some.inj (hrec2.symm.trans hrec)
      exact he ▸ htin

/-- Witness for C10: the invariant holds at the concrete reachable store
holding `j1` and `j2` in queue 1. -/
theorem C10_cross_index_invariant_witness : CrossIndexInv traceC9 :=
  C10_cross_index_invariant
    (Reach.add "j2" "t1" 1 "y" (Reach.add "j1" "t1" 1 "x" Reach.empty))

/-- C6: `remove(job_id)` fails with the not-found error (`KeyError` in the
code, the spec's `NotFoundError`) exactly when the job id is unknown, and
on that failure the whole store is returned unmodified (the failing
`self.jobs.pop` happens before any mutation); on every reachable state a
`remove` of a present job succeeds, so the unknown id is the only failure
case. -/
theorem C6_remove_unknown_notfound (s : Store) (j : String) :
    (lookupKV j s.jobs = none → Jobs.remove j s = (.error .keyError, s))
    ∧ (Reach s → ∀ rec, lookupKV j s.jobs = some rec →
        ∃ s2, Jobs.remove j s = (.ok (), s2)) := by
  constructor
  · intro h
    simp [Jobs.remove, h]
  · intro hr rec hrec
    rcases remove_spec (Reach_InvS hr) hrec with ⟨s2, hrem, _⟩
    exact ⟨s2, hrem⟩

/-- Witness for C6: removing an unknown id fails and leaves the concrete
store untouched; removing the present job `j1` succeeds. -/
theorem C6_remove_unknown_notfound_witness :
    Jobs.remove "missing" traceC9 = (.error .keyError, traceC9)
    ∧ ∃ s2, Jobs.remove "j1" traceC9 = (.ok (), s2) :=
  ⟨(C6_remove_unknown_notfound traceC9 "missing").1 rfl,
   (C6_remove_unknown_notfound traceC9 "j1").2
     (Reach.add "j2" "t1" 1 "y" (Reach.add "j1" "t1" 1 "x" Reach.empty))
     ⟨"x", ["t1"], [1]⟩ rfl⟩

/-- C8: cleanup completeness: from any reachable state containing job `j`,
`remove(j)` succeeds and afterwards `status` reports one job fewer with
`j` gone from the job store; every queue that contained `j` has exactly
one entry fewer and no longer contains `j`, every other queue is
untouched, and the queue index and the whole cursor index survive
unchanged (queues and cursors are retained even when empty); every task
whose job set consisted only of `j` is deleted from the task index, so
the total task count does not grow. -/
theorem C8_cleanup_completeness {s : Store} (hr : Reach s) {j : String} {rec : JobRec}
    (hrec : lookupKV j s.jobs = some rec) :
    ∃ s2, Jobs.remove j s = (.ok (), s2)
      ∧ (Jobs.status s2).total_jobs + 1 = (Jobs.status s).total_jobs
      ∧ lookupKV j s2.jobs = none
      ∧ s2.queue_iter = s.queue_iter
      ∧ s2.queues.map Prod.fst = s.queues.map Prod.fst
      ∧ (∀ q d, lookupKV q s.queues = some d → j ∈ d.keys →
          ∃ d2, lookupKV q s2.queues = some d2 ∧ d2.live.length + 1 = d.live.length
            ∧ j ∉ d2.keys)
      ∧ (∀ q d, lookupKV q s.queues = some d → j ∉ d.keys →
          lookupKV q s2.queues = some d)
      ∧ (∀ t tset, lookupKV t s.tasks = some tset → (∀ x, x ∈ tset → x = j) →
          lookupKV t s2.tasks = none)
      ∧ (Jobs.status s2).total_tasks ≤ (Jobs.status s).total_tasks := by
  have hi := Reach_InvS hr
  rcases remove_spec hi hrec with ⟨s2, hrem, hiter, hjobs, hqfst, hqout, hqin, htsub,
    htout, htin⟩
  refine ⟨s2, hrem, ?_, ?_, hiter, hqfst, ?_, ?_, ?_, ?_⟩
  · show s2.jobs.length + 1 = s.jobs.length
    rw [hjobs]
    exact length_eraseKV_of_mem hi.jobs_nodup hrec
  · rw [hjobs]
    exact lookupKV_eraseKV_self j s.jobs
  · intro q d hd hj
    have hqm : q ∈ rec.queues := by
      rcases hi.queue_to_job q d hd j hj with ⟨rec2, hrec2, hqin2⟩
      have he : rec2 = rec := Option.some.inj (hrec2.symm.trans hrec)
      exact he ▸ hqin2
    rcases hqin q hqm with ⟨dx, d2, hdx, hd2, hkeys, hlen, _⟩
    have hde : dx = d := Option.some.inj (hdx.symm.trans hd)
    subst hde
    refine ⟨d2, hd2, hlen, ?_⟩
    rw [hkeys, List.Nodup.mem_erase_iff (hi.live_nodup q dx hdx)]
    intro hcontra
    exact hcontra.1 rfl
  · intro q d hd hj
    have hqm : q ∉ rec.queues := by
      intro hqm
      rcases hqin q hqm with ⟨dx, d2, hdx, hd2, hkeys, _, _⟩
      have hde : dx = d := Option.some.inj (hdx.symm.trans hd)
      subst hde
      rcases hi.job_to_queue j rec hrec q hqm with ⟨dy, hdy, hjy⟩
      have hde2 : dy = dx := Option.some.inj (hdy.symm.trans hdx)
      subst hde2
      exact hj hjy
    rw [hqout q hqm]
    exact hd
  · intro t tset hts hall
    have hne := hi.task_nonempty t tset hts
    have hjm : j ∈ tset := by
      rcases tset with _ | ⟨x, xs⟩
      · exact absurd rfl hne
      · have hx : x = j := hall x (List.mem_cons_self x xs)
        rw [← hx]
        exact List.mem_cons_self x xs
    have htm : t ∈ rec.tasks := by
      rcases hi.task_to_job t tset hts j hjm with ⟨rec2, hrec2, htin2⟩
      have he : rec2 = rec := Option.some.inj (hrec2.symm.trans hrec)
      exact he ▸ htin2
    rcases htin t htm with ⟨tsetx, htsx, _, hif⟩
    have hte : tsetx = tset := Option.some.inj (htsx.symm.trans hts)
    subst hte
    have hemp : tsetx.filter (fun x => x ≠ j) = [] := by
      rw [List.filter_eq_nil_iff]
      intro a ha
      simp [hall a ha]
    rw [hif, if_pos hemp]
  · show s2.tasks.length ≤ s.tasks.length
    have := htsub.length_le
    simpa using this

/-- Witness for C8: removing `j1` from the concrete two-job store
decrements the job total, deletes `j1`'s entry from queue 1 and keeps the
cursor index. -/
theorem C8_cleanup_completeness_witness :
    ∃ s2, Jobs.remove "j1" traceC9 = (.ok (), s2)
      ∧ (Jobs.status s2).total_jobs + 1 = (Jobs.status traceC9).total_jobs
      ∧ lookupKV "j1" s2.jobs = none
      ∧ s2.queue_iter = traceC9.queue_iter
      ∧ s2.queues.map Prod.fst = traceC9.queues.map Prod.fst
      ∧ (∀ q d, lookupKV q traceC9.queues = some d → "j1" ∈ d.keys →
          ∃ d2, lookupKV q s2.queues = some d2 ∧ d2.live.length + 1 = d.live.length
            ∧ "j1" ∉ d2.keys)
      ∧ (∀ q d, lookupKV q traceC9.queues = some d → "j1" ∉ d.keys →
          lookupKV q s2.queues = some d)
      ∧ (∀ t tset, lookupKV t traceC9.tasks = some tset → (∀ x, x ∈ tset → x = "j1") →
          lookupKV t s2.tasks = none)
      ∧ (Jobs.status s2).total_tasks ≤ (Jobs.status traceC9).total_tasks :=
  C8_cleanup_completeness
    (Reach.add "j2" "t1" 1 "y" (Reach.add "j1" "t1" 1 "x" Reach.empty)) rfl


/-- C3 (amended): lease protection holds for jobs that live in a single
queue.  If a `pull` at time `t1` returns job `j`, and `j` belongs to
exactly one queue of the resulting store, then the immediately following
`pull`, made at a time `t2` with `t2 - t1` at most the lease duration,
does not include `j` in its result, whatever its `count` argument.  (The
original claim, over jobs in any number of queues, is refuted by
`C3_counterexample`: only the entry of the queue `j` was served from is
stamped, and a second queue holding `j` re-serves it at once.) -/
theorem C3_amended_lease_protection (s : Store) (t1 t2 : Int) (c1 c2 : Nat)
    (j dat : String) (r1 r2 : List (String × String)) (s1 : Store) (q : Int)
    (h1 : Jobs.pull c1 t1 s = (.ok r1, s1))
    (hj : (j, dat) ∈ r1)
    (huniq : ∀ q2 d2, lookupKV q2 s1.queues = some d2 → j ∈ d2.keys → q2 = q)
    (hlease : t2 - t1 ≤ JOB_LEASE_TIME)
    (h2 : (Jobs.pull c2 t2 s1).1 = .ok r2) :
    ∀ dat2, (j, dat2) ∉ r2 := by
  rcases pull_returned_leased h1 (j, dat) hj with ⟨q0, d0, hd0, hv0⟩
  have hq0 : q0 = q := huniq q0 d0 hd0 (ODict.mem_keys_of_lookup hv0)
  subst hq0
  have hguard : ∀ q2 d2, lookupKV q2 s1.queues = some d2 → ∀ v, d2.lookup j = some v →
      ¬(t2 - v > JOB_LEASE_TIME) := by
    intro q2 d2 hd2 v hv
    have hq2 : q2 = q0 := huniq q2 d2 hd2 (ODict.mem_keys_of_lookup hv)
    subst hq2
    have hde : d2 = d0 := Option.some.inj (hd2.symm.trans hd0)
    subst hde
    have hve : v = t1 := Option.some.inj (hv.symm.trans hv0)
    subst hve
    omega
  exact pull_guarded_not_returned hguard h2

/-- Witness for amended C3: job `j1` lives only in queue 1; after it is
pulled at time 1000, the pull at time 1001 returns only queue 2's job. -/
theorem C3_amended_lease_protection_witness :
    ("j1", "x") ∉ [("j2", "y")] := by
  have htrace : Jobs.pull 1 1000
      (Jobs.add "j2" "t" 2 "y" (Jobs.add "j1" "t" 1 "x" Store.empty).2).2
      = (.ok [("j1", "x")],
         (Jobs.pull 1 1000
           (Jobs.add "j2" "t" 2 "y" (Jobs.add "j1" "t" 1 "x" Store.empty).2).2).2) := rfl
  refine C3_amended_lease_protection _ 1000 1001 1 1 "j1" "x" [("j1", "x")] [("j2", "y")]
    _ 1 htrace (List.mem_cons_self _ _) ?_ (by decide) rfl "x"
  intro q2 d2 h hm
  have he : (Jobs.pull 1 1000
      (Jobs.add "j2" "t" 2 "y" (Jobs.add "j1" "t" 1 "x" Store.empty).2).2).2.queues
      = [((1 : Int), (⟨[⟨0, "j1", 1000⟩], [], 1⟩ : ODict)),
         ((2 : Int), (⟨[⟨0, "j2", 0⟩], [], 1⟩ : ODict))] := rfl
  rw [he] at h
  by_cases hq1 : (1 : Int) = q2
  · exact hq1.symm
  · rw [lookupKV, if_neg hq1] at h
    by_cases hq2 : (2 : Int) = q2
    · rw [lookupKV, if_pos hq2] at h
      have hde : d2 = ⟨[⟨0, "j2", 0⟩], [], 1⟩ := (Option.some.inj h).symm
      rw [hde] at hm
      simp [ODict.keys] at hm
    · rw [lookupKV, if_neg hq2] at h
      cases h


/-! ## The pull loop never raises on remove-free histories -/

theorem pullQueue_ok (jobsStore : List (String × JobRec)) (count : Nat) (now : Int)
    (hlease : JOB_LEASE_TIME < now) :
    ∀ (fuel : Nat) (d : ODict) (qi : QueueIterator) (acc : List (String × String)),
    count + 1 ≤ fuel + acc.length → 1 ≤ fuel →
    d.dead = [] → (d.live.map Node.nid).Nodup → d.live ≠ [] →
    (∀ k, k ∈ d.keys → ∃ rec, lookupKV k jobsStore = some rec) →
    (qi.pos = none ∨ ∃ p, qi.pos = some p ∧ p ∈ d.live.map Node.nid) →
    (1 ≤ qi.count ∨ (qi.count = 0 ∧ ∀ n, n ∈ d.live → n.val = 0)) →
    ∃ acc1 d1 qi1,
      (Jobs.pullQueue jobsStore count now fuel d qi acc = .ret acc1 d1 qi1 ∨
       Jobs.pullQueue jobsStore count now fuel d qi acc = .cont acc1 d1 qi1) ∧
      d1.keys = d.keys ∧ d1.live.map Node.nid = d.live.map Node.nid ∧
      d1.dead = d.dead ∧ d1.nextNid = d.nextNid ∧
      (qi1.pos = none ∨ ∃ p, qi1.pos = some p ∧ p ∈ d1.live.map Node.nid) ∧
      1 ≤ qi1.count := by
  intro fuel
  induction fuel with
  | zero =>
    intro d qi acc hcnt hfuel
    exact absurd hfuel (by omega)
  | succ fuel ih =>
    intro d qi acc hcnt hfuel hdead hnd hne hkeys hpos hcount
    rcases qiNext_sound hdead hpos hne with ⟨k, v, p, hnext, hp, hv, hk⟩
    have hq0 : (0 : Int) ≤ qi.count := by
      rcases hcount with h | ⟨h, _⟩
      · omega
      · omega
    by_cases hav : now - v > JOB_LEASE_TIME
    · rcases hkeys k hk with ⟨rec, hrec⟩
      have hkeys1 : (d.set k now).keys = d.keys := ODict.keys_set_of_some hv now
      have hnids1 : (d.set k now).live.map Node.nid = d.live.map Node.nid :=
        ODict.nids_set_of_some hv now
      have hdead1 : (d.set k now).dead = d.dead := ODict.dead_set d k now
      have hnn1 : (d.set k now).nextNid = d.nextNid := ODict.nextNid_set_of_some hv now
      by_cases hfull : count ≤ (acc ++ [(k, rec.data)]).length
      · have hred : Jobs.pullQueue jobsStore count now (fuel + 1) d qi acc
            = .ret (acc ++ [(k, rec.data)]) (d.set k now) ⟨qi.count + 1, some p⟩ := by
          simp only [Jobs.pullQueue, hnext, if_pos hav, hrec, if_pos hfull]
        refine ⟨acc ++ [(k, rec.data)], d.set k now, ⟨qi.count + 1, some p⟩,
          Or.inl hred, hkeys1, hnids1, hdead1, hnn1, Or.inr ⟨p, rfl, ?_⟩, ?_⟩
        · rw [hnids1]
          exact hp
        · show (1 : Int) ≤ qi.count + 1
          omega
      · have hred : Jobs.pullQueue jobsStore count now (fuel + 1) d qi acc
            = Jobs.pullQueue jobsStore count now fuel (d.set k now) ⟨qi.count + 1, some p⟩
                (acc ++ [(k, rec.data)]) := by
          simp only [Jobs.pullQueue, hnext, if_pos hav, hrec, if_neg hfull]
        have hlen : (acc ++ [(k, rec.data)]).length = acc.length + 1 := by simp
        have hfuel1 : 1 ≤ fuel := by
          rw [hlen] at hfull
          omega
        have hne1 : (d.set k now).live ≠ [] := by
          intro h0
          have h1 : d.live.map Node.nid = [] := by
            rw [← hnids1, h0]
            rfl
          cases hl0 : d.live with
          | nil => exact hne hl0
          | cons a l =>
            rw [hl0] at h1
            simp at h1
        rcases ih (d.set k now) ⟨qi.count + 1, some p⟩ (acc ++ [(k, rec.data)])
            (by rw [hlen]; omega) hfuel1
            (hdead1.trans hdead)
            (by rw [hnids1]; exact hnd)
            hne1
            (fun k2 hk2 => hkeys k2 (by rwa [hkeys1] at hk2))
            (Or.inr ⟨p, rfl, by rw [hnids1]; exact hp⟩)
            (Or.inl (show (1 : Int) ≤ qi.count + 1 by omega))
          with ⟨acc1, d1, qi1, hpq, hk1, hn1, hd1, hnn2, hpos1, hcnt1⟩
        refine ⟨acc1, d1, qi1, ?_, hk1.trans hkeys1, hn1.trans hnids1,
          hd1.trans hdead1, hnn2.trans hnn1, hpos1, hcnt1⟩
        rw [hred]
        exact hpq
    · have hq1 : (1 : Int) ≤ qi.count := by
        rcases hcount with h | ⟨h0, hvals⟩
        · exact h
        · exfalso
          rcases ODict.lookup_some_mem hv with ⟨n, hnmem, _, hnval⟩
          have hv0 : v = 0 := by
            rw [← hnval]
            exact hvals n hnmem
          rw [hv0] at hav
          omega
      have h2 : (2 : Int) ≤ (⟨qi.count + 1, some p⟩ : QueueIterator).count := by
        show (2 : Int) ≤ qi.count + 1
        omega
      rcases qiRevert_ok hdead hnd h2 with ⟨pos2, hrev, hvalid⟩
      have hred : Jobs.pullQueue jobsStore count now (fuel + 1) d qi acc
          = .cont acc d ⟨qi.count + 1 - 1, pos2⟩ := by
        simp only [Jobs.pullQueue, hnext, if_neg hav, hrev]
      refine ⟨acc, d, ⟨qi.count + 1 - 1, pos2⟩, Or.inr hred, rfl, rfl, rfl, rfl,
        hvalid, ?_⟩
      show (1 : Int) ≤ qi.count + 1 - 1
      omega

theorem QInv_mono_jobs {jobsStore jobsStore2 : List (String × JobRec)}
    {qs : List (Int × ODict)} {qis : List (Int × QueueIterator)}
    (h : QInv jobsStore qs qis)
    (hmono : ∀ k, (∃ rec, lookupKV k jobsStore = some rec) →
      ∃ rec2, lookupKV k jobsStore2 = some rec2) :
    QInv jobsStore2 qs qis := by
  intro q d hd
  rcases h q d hd with ⟨h1, h2, h3, h4, h5⟩
  exact ⟨h1, h2, h3, fun k hk => hmono k (h4 k hk), h5⟩

theorem QInv_set_dict {jobsStore : List (String × JobRec)} {qs : List (Int × ODict)}
    {qis : List (Int × QueueIterator)} {qid : Int} {d1 : ODict}
    (h : QInv jobsStore qs qis)
    (hdead : d1.dead = []) (hnd : (d1.live.map Node.nid).Nodup)
    (hlt : ∀ n, n ∈ d1.live → n.nid < d1.nextNid)
    (hkeys : ∀ k, k ∈ d1.keys → ∃ rec, lookupKV k jobsStore = some rec)
    (hcur : ∀ qi, lookupKV qid qis = some qi →
      (qi.pos = none ∨ ∃ p, qi.pos = some p ∧ p ∈ d1.live.map Node.nid) ∧
      (1 ≤ qi.count ∨ (qi.count = 0 ∧ ∀ n, n ∈ d1.live → n.val = 0))) :
    QInv jobsStore (setKV qid d1 qs) qis := by
  intro q d hd
  by_cases hqq : q = qid
  · subst hqq
    rw [lookupKV_setKV_self] at hd
    have hde : d = d1 := (Option.some.inj hd).symm
    subst hde
    exact ⟨hdead, hnd, hlt, hkeys, hcur⟩
  · rw [lookupKV_setKV_ne hqq] at hd
    exact h q d hd

theorem QInv_set {jobsStore : List (String × JobRec)} {qs : List (Int × ODict)}
    {qis : List (Int × QueueIterator)} {qid : Int} {d1 : ODict} {qi1 : QueueIterator}
    (h : QInv jobsStore qs qis)
    (hdead : d1.dead = []) (hnd : (d1.live.map Node.nid).Nodup)
    (hlt : ∀ n, n ∈ d1.live → n.nid < d1.nextNid)
    (hkeys : ∀ k, k ∈ d1.keys → ∃ rec, lookupKV k jobsStore = some rec)
    (hpos : qi1.pos = none ∨ ∃ p, qi1.pos = some p ∧ p ∈ d1.live.map Node.nid)
    (hcnt : 1 ≤ qi1.count ∨ (qi1.count = 0 ∧ ∀ n, n ∈ d1.live → n.val = 0)) :
    QInv jobsStore (setKV qid d1 qs) (setKV qid qi1 qis) := by
  intro q d hd
  by_cases hqq : q = qid
  · subst hqq
    rw [lookupKV_setKV_self] at hd
    have hde : d = d1 := (Option.some.inj hd).symm
    subst hde
    refine ⟨hdead, hnd, hlt, hkeys, ?_⟩
    intro qi hqi
    rw [lookupKV_setKV_self] at hqi
    have hqe : qi = qi1 := (Option.some.inj hqi).symm
    subst hqe
    exact ⟨hpos, hcnt⟩
  · rw [lookupKV_setKV_ne hqq] at hd
    rcases h q d hd with ⟨h1, h2, h3, h4, h5⟩
    refine ⟨h1, h2, h3, h4, ?_⟩
    intro qi hqi
    rw [lookupKV_setKV_ne hqq] at hqi
    exact h5 qi hqi

theorem pullQueues_ok (jobsStore : List (String × JobRec)) (count : Nat) (now : Int)
    (hlease : JOB_LEASE_TIME < now) :
    ∀ (ids : List Int) (qs : List (Int × ODict)) (qis : List (Int × QueueIterator))
      (acc : List (String × String)),
    (∀ qid, qid ∈ ids →
      (∃ d, lookupKV qid qs = some d) ∧ (∃ qi, lookupKV qid qis = some qi)) →
    QInv jobsStore qs qis →
    ∃ res qs2 qis2,
      Jobs.pullQueues jobsStore count now ids qs qis acc = (.ok res, qs2, qis2)
      ∧ QInv jobsStore qs2 qis2 := by
  intro ids
  induction ids with
  | nil =>
    intro qs qis acc _ hq
    exact ⟨acc, qs, qis, rfl, hq⟩
  | cons qid rest ih =>
    intro qs qis acc hmem hq
    rcases hmem qid (List.mem_cons_self qid rest) with ⟨⟨d, hd⟩, ⟨qi, hqi⟩⟩
    have hmem1 : ∀ q2, q2 ∈ rest →
        (∃ d2, lookupKV q2 qs = some d2) ∧ (∃ qi2, lookupKV q2 qis = some qi2) :=
      fun q2 hq2 => hmem q2 (List.mem_cons_of_mem qid hq2)
    by_cases hemp : d.live.isEmpty
    · have hred : Jobs.pullQueues jobsStore count now (qid :: rest) qs qis acc
          = Jobs.pullQueues jobsStore count now rest qs qis acc := by
        simp only [Jobs.pullQueues, hd, hemp, if_true]
      rw [hred]
      exact ih qs qis acc hmem1 hq
    · have hne : d.live ≠ [] := by
        intro h0
        apply hemp
        rw [h0]
        rfl
      rcases hq qid d hd with ⟨hdead, hnd, hlt, hkeys, hcur⟩
      rcases hcur qi hqi with ⟨hpos, hcnt⟩
      rcases pullQueue_ok jobsStore count now hlease (count + 1) d qi acc
          (by omega) (by omega) hdead hnd hne hkeys hpos hcnt with
        ⟨acc1, d1, qi1, hpq, hk1, hn1, hd1, hnn1, hpos1, hcnt1⟩
      have hlt1 : ∀ n, n ∈ d1.live → n.nid < d1.nextNid := by
        intro n hn
        have hnin : n.nid ∈ d.live.map Node.nid := by
          rw [← hn1]
          exact List.mem_map.2 ⟨n, hn, rfl⟩
        rcases List.mem_map.1 hnin with ⟨m, hm, hmn⟩
        rw [hnn1, ← hmn]
        exact hlt m hm
      have hkeys1 : ∀ k, k ∈ d1.keys → ∃ rec, lookupKV k jobsStore = some rec :=
        fun k hk => hkeys k (by rwa [hk1] at hk)
      have hq1 : QInv jobsStore (setKV qid d1 qs) (setKV qid qi1 qis) :=
        QInv_set hq (hd1.trans hdead) (by rw [hn1]; exact hnd) hlt1 hkeys1 hpos1
          (Or.inl hcnt1)
      have hmem2 : ∀ q2, q2 ∈ rest →
          (∃ d2, lookupKV q2 (setKV qid d1 qs) = some d2)
          ∧ (∃ qi2, lookupKV q2 (setKV qid qi1 qis) = some qi2) := by
        intro q2 hq2
        rcases hmem1 q2 hq2 with ⟨⟨d2, hd2⟩, ⟨qi2, hqi2⟩⟩
        by_cases hqq : q2 = qid
        · subst hqq
          exact ⟨⟨d1, lookupKV_setKV_self q2 d1 qs⟩,
            ⟨qi1, lookupKV_setKV_self q2 qi1 qis⟩⟩
        · exact ⟨⟨d2, by rw [lookupKV_setKV_ne hqq]; exact hd2⟩,
            ⟨qi2, by rw [lookupKV_setKV_ne hqq]; exact hqi2⟩⟩
      rcases hpq with hret | hcont
      · have hred : Jobs.pullQueues jobsStore count now (qid :: rest) qs qis acc
            = (.ok acc1, setKV qid d1 qs, setKV qid qi1 qis) := by
          simp only [Jobs.pullQueues, hd]
          rw [if_neg hemp]
          simp only [hqi, hret]
        exact ⟨acc1, setKV qid d1 qs, setKV qid qi1 qis, hred, hq1⟩
      · have hred : Jobs.pullQueues jobsStore count now (qid :: rest) qs qis acc
            = Jobs.pullQueues jobsStore count now rest (setKV qid d1 qs)
                (setKV qid qi1 qis) acc1 := by
          simp only [Jobs.pullQueues, hd]
          rw [if_neg hemp]
          simp only [hqi, hcont]
        rw [hred]
        exact ih (setKV qid d1 qs) (setKV qid qi1 qis) acc1 hmem2 hq1

theorem PInv_empty : PInv Store.empty := by
  refine ⟨InvS_empty, ?_⟩
  intro q d hd
  exact absurd hd (by simp [Store.empty, lookupKV])

theorem PInv_addIndexes {s : Store} (h : PInv s) {j : String} (t : String) (q : Int)
    {job : JobRec}
    (hjob : lookupKV j s.jobs = some job
      ∨ (lookupKV j s.jobs = none ∧ job.tasks = [] ∧ job.queues = [])) :
    PInv (Jobs.addIndexes j t q job s).2 := by
  refine ⟨InvS_addIndexes h.inv t q hjob, ?_⟩
  have hjobs : (Jobs.addIndexes j t q job s).2.jobs
      = setKV j { job with tasks := addSet t job.tasks, queues := addSet q job.queues }
          s.jobs := addIndexes_jobs j t q job s
  have hmono : ∀ k, (∃ rec, lookupKV k s.jobs = some rec) →
      ∃ rec2, lookupKV k (Jobs.addIndexes j t q job s).2.jobs = some rec2 := by
    intro k hk
    rw [hjobs]
    by_cases hkj : k = j
    · subst hkj
      exact ⟨_, lookupKV_setKV_self k _ s.jobs⟩
    · rcases hk with ⟨rec, hrec⟩
      rw [lookupKV_setKV_ne hkj]
      exact ⟨rec, hrec⟩
  have hbase : QInv (Jobs.addIndexes j t q job s).2.jobs s.queues s.queue_iter :=
    QInv_mono_jobs h.cursors hmono
  have hjlook : lookupKV j (Jobs.addIndexes j t q job s).2.jobs
      = some { job with tasks := addSet t job.tasks, queues := addSet q job.queues } := by
    rw [hjobs]
    exact lookupKV_setKV_self j _ s.jobs
  rcases hq : lookupKV q s.queues with _ | d
  · rcases addIndexes_queues_none j t job hq with ⟨hq1, hq2⟩
    rw [hq1, hq2]
    have hd0 : ODict.empty.set j 0 = (⟨[⟨0, j, 0⟩], [], 1⟩ : ODict) := rfl
    have hdead0 : (ODict.empty.set j 0).dead = [] := rfl
    have hnd0 : ((ODict.empty.set j 0).live.map Node.nid).Nodup := by
      rw [hd0]
      simp
    have hlt0 : ∀ n, n ∈ (ODict.empty.set j 0).live →
        n.nid < (ODict.empty.set j 0).nextNid := by
      rw [hd0]
      intro n hn
      have hne : n = ⟨0, j, 0⟩ := List.mem_singleton.1 hn
      rw [hne]
      exact Nat.zero_lt_one
    have hkeys0 : ∀ k, k ∈ (ODict.empty.set j 0).keys →
        ∃ rec, lookupKV k (Jobs.addIndexes j t q job s).2.jobs = some rec := by
      intro k hk
      have hkj : k = j := by
        rw [hd0] at hk
        simpa [ODict.keys] using hk
      subst hkj
      exact ⟨_, hjlook⟩
    refine QInv_set hbase hdead0 hnd0 hlt0 hkeys0 (Or.inl rfl) (Or.inr ⟨rfl, ?_⟩)
    rw [hd0]
    intro n hn
    have hne : n = ⟨0, j, 0⟩ := List.mem_singleton.1 hn
    rw [hne]
  · rcases hbase q d hq with ⟨hdead, hnd, hlt, hkeys, hcur⟩
    rcases hdj : d.lookup j with _ | w
    · rcases addIndexes_queues_new j t job hq hdj with ⟨hq1, hq2⟩
      rw [hq1, hq2]
      have hset : d.set j 0
          = { d with live := d.live ++ [⟨d.nextNid, j, 0⟩], nextNid := d.nextNid + 1 } :=
        ODict.set_of_none hdj 0
      have hlive : (d.set j 0).live = d.live ++ [⟨d.nextNid, j, 0⟩] := by rw [hset]
      have hnn : (d.set j 0).nextNid = d.nextNid + 1 := by rw [hset]
      have hnids : (d.set j 0).live.map Node.nid = d.live.map Node.nid ++ [d.nextNid] := by
        rw [hlive]
        simp
      have hdead1 : (d.set j 0).dead = [] := (ODict.dead_set d j 0).trans hdead
      have hnd1 : ((d.set j 0).live.map Node.nid).Nodup := by
        rw [hnids, List.nodup_append]
        refine ⟨hnd, List.nodup_singleton _, ?_⟩
        intro a ha hb
        have hab : a = d.nextNid := by simpa using hb
        subst hab
        rcases List.mem_map.1 ha with ⟨n, hn, hna⟩
        have := hlt n hn
        omega
      have hlt1 : ∀ n, n ∈ (d.set j 0).live → n.nid < (d.set j 0).nextNid := by
        intro n hn
        rw [hlive] at hn
        rw [hnn]
        rcases List.mem_append.1 hn with hn | hn
        · have := hlt n hn
          omega
        · have hne : n = ⟨d.nextNid, j, 0⟩ := List.mem_singleton.1 hn
          rw [hne]
          show d.nextNid < d.nextNid + 1
          omega
      have hkm : (d.set j 0).keys = d.keys ++ [j] := ODict.keys_set_of_none hdj 0
      have hkeys1 : ∀ k, k ∈ (d.set j 0).keys →
          ∃ rec, lookupKV k (Jobs.addIndexes j t q job s).2.jobs = some rec := by
        intro k hk
        rw [hkm] at hk
        rcases List.mem_append.1 hk with hk | hk
        · exact hkeys k hk
        · have hkj : k = j := by simpa using hk
          subst hkj
          exact ⟨_, hjlook⟩
      refine QInv_set_dict hbase hdead1 hnd1 hlt1 hkeys1 ?_
      intro qi hqi
      rcases hcur qi hqi with ⟨hpos, hcnt⟩
      constructor
      · rcases hpos with hpos | ⟨p, hp1, hp2⟩
        · exact Or.inl hpos
        · refine Or.inr ⟨p, hp1, ?_⟩
          rw [hnids]
          exact List.mem_append.2 (Or.inl hp2)
      · rcases hcnt with hcnt | ⟨hc0, hvals⟩
        · exact Or.inl hcnt
        · refine Or.inr ⟨hc0, ?_⟩
          intro n hn
          rw [hlive] at hn
          rcases List.mem_append.1 hn with hn | hn
          · exact hvals n hn
          · have hne : n = ⟨d.nextNid, j, 0⟩ := List.mem_singleton.1 hn
            rw [hne]
    · rcases addIndexes_queues_mem j t job hq hdj with ⟨hq1, hq2⟩
      rw [hq1, hq2]
      exact hbase

theorem PInv_add (j t : String) (q : Int) (dat : String) {s : Store} (h : PInv s) :
    PInv (Jobs.add j t q dat s).2 := by
  rcases hj : lookupKV j s.jobs with _ | job
  · rw [show (Jobs.add j t q dat s).2 = (Jobs.addIndexes j t q ⟨dat, [], []⟩ s).2 from by
      simp [Jobs.add, hj]]
    exact PInv_addIndexes h t q (Or.inr ⟨hj, rfl, rfl⟩)
  · by_cases hd : dat = job.data
    · rw [show (Jobs.add j t q dat s).2 = (Jobs.addIndexes j t q job s).2 from by
        simp [Jobs.add, hj, hd]]
      exact PInv_addIndexes h t q (Or.inl hj)
    · rw [show (Jobs.add j t q dat s).2 = s from by simp [Jobs.add, hj, hd]]
      exact h

theorem pull_ok (count : Nat) (now : Int) {s : Store} (hnow : JOB_LEASE_TIME < now)
    (h : PInv s) : ∃ r s2, Jobs.pull count now s = (.ok r, s2) := by
  have hmem : ∀ qid, qid ∈ s.queues.map Prod.fst →
      (∃ d, lookupKV qid s.queues = some d)
      ∧ (∃ qi, lookupKV qid s.queue_iter = some qi) := by
    intro qid hqid
    refine ⟨lookupKV_isSome_of_mem hqid, lookupKV_isSome_of_mem ?_⟩
    rw [h.inv.qiter_keys]
    exact hqid
  rcases pullQueues_ok s.jobs count now hnow (s.queues.map Prod.fst) s.queues
      s.queue_iter [] hmem h.cursors with ⟨res, qs2, qis2, hpq, _⟩
  refine ⟨res, { s with queues := qs2, queue_iter := qis2 }, ?_⟩
  unfold Jobs.pull
  rw [hpq]

theorem PInv_pull (count : Nat) (now : Int) {s : Store} (hnow : JOB_LEASE_TIME < now)
    (h : PInv s) : PInv (Jobs.pull count now s).2 := by
  rcases pull_components count now s with ⟨hjobs, _, hqueues, hiter, _⟩
  have hmem : ∀ qid, qid ∈ s.queues.map Prod.fst →
      (∃ d, lookupKV qid s.queues = some d)
      ∧ (∃ qi, lookupKV qid s.queue_iter = some qi) := by
    intro qid hqid
    refine ⟨lookupKV_isSome_of_mem hqid, lookupKV_isSome_of_mem ?_⟩
    rw [h.inv.qiter_keys]
    exact hqid
  rcases pullQueues_ok s.jobs count now hnow (s.queues.map Prod.fst) s.queues
      s.queue_iter [] hmem h.cursors with ⟨res, qs2, qis2, hpq, hq2⟩
  refine ⟨InvS_pull count now h.inv, ?_⟩
  have e1 : (Jobs.pull count now s).2.queues = qs2 := by rw [hqueues, hpq]
  have e2 : (Jobs.pull count now s).2.queue_iter = qis2 := by rw [hiter, hpq]
  rw [hjobs, e1, e2]
  exact hq2

theorem ReachAP_PInv {s : Store} (h : ReachAP s) : PInv s := by
  induction h with
  | empty => exact PInv_empty
  | add j t q dat _ ih => exact PInv_add j t q dat ih
  | pull count now _ hnow ih => exact PInv_pull count now hnow ih

/-- C2 (amended): on store states reachable through `add` and `pull` alone
(no `remove`), `pull(count)` always returns normally when called at any
instant past the lease duration — the cursor stays on live nodes and the
revert modulus is never taken by zero.  The unamended claim, quantified
over histories that include `remove`, is refuted by the concrete
`KeyError` trace of the counterexample theorem, and the cursor also
survives queue growth by `add` only because a grown queue keeps its old
nodes: the suspended generator never needs the deleted-node path on these
histories. -/
theorem C2_amended_pull_terminates (count : Nat) (now : Int) {s : Store}
    (hs : ReachAP s) (hnow : JOB_LEASE_TIME < now) :
    ∃ r s2, Jobs.pull count now s = (.ok r, s2) :=
  pull_ok count now hnow (ReachAP_PInv hs)

/-- Witness for amended C2: the two-job store built by two `add` calls is
an add/pull history, and pulling from it at time 1000 returns normally. -/
theorem C2_amended_pull_terminates_witness :
    ∃ r s2, Jobs.pull 2 1000 traceC9 = (.ok r, s2) :=
  C2_amended_pull_terminates 2 1000
    (ReachAP.add "j2" "t1" 1 "y" (ReachAP.add "j1" "t1" 1 "x" ReachAP.empty))
    (by decide)

end RestQ
